import Mathlib

/-!
Verification development for the graph-executor repository.

The Rust source is shallowly embedded: pure fragments become Lean
functions, shared-memory mutation becomes explicit state passing, and
fallible operations return Except/Option.  Strings are modelled as
lists of characters, machine integers as Nat with explicit bounds.
External crates (petgraph, rmp_serde, the POSIX layer) are modelled
from the specification where the repository's code delegates to them;
each such definition carries a doc comment saying so.
-/

namespace GraphExecutor

/-- Per-node execution status, from src/graph_structure/execution_status.rs. -/
inductive ExecutionStatus where
  | Executed
  | Executing
  | Executable
  | NonExecutable
deriving DecidableEq, Repr

/-- Position of a status along the path NonExecutable, Executable, Executing, Executed. -/
def statusRank : ExecutionStatus → Nat
  | .NonExecutable => 0
  | .Executable => 1
  | .Executing => 2
  | .Executed => 3

/-- A graph node, from src/graph_structure/node.rs: an argument string plus a status. -/
structure Node where
  args : List Char
  execution_status : ExecutionStatus
deriving DecidableEq, Repr

instance : Inhabited Node := ⟨⟨[], .Executable⟩⟩

/-- Node::new: fresh node with the given args and status Executable. -/
def Node.new (args : List Char) : Node := ⟨args, .Executable⟩

/-- A directed edge between string-keyed nodes, from src/graph_structure/edge.rs. -/
structure Edge where
  parent : List Char
  child : List Char
deriving DecidableEq, Repr

/-- Edge::new. -/
def Edge.new (parent child : List Char) : Edge := ⟨parent, child⟩

/-- The in-memory digraph: node weights in index order plus edges as index
pairs, modelling the petgraph StableDiGraph wrapped by
src/graph_structure/graph.rs (nodes indexed 0,1,... in insertion order,
edges kept in insertion order). -/
structure Graph where
  nodes : List Node
  edges : List (Nat × Nat)
deriving DecidableEq, Repr

/-- Status of node `i`, defaulting outside the range (petgraph would panic there). -/
def Graph.statusOf (g : Graph) (i : Nat) : ExecutionStatus :=
  (g.nodes.getD i default).execution_status

/-- Replace the status of node `i`. -/
def Graph.setStatus (g : Graph) (i : Nat) (s : ExecutionStatus) : Graph :=
  ⟨g.nodes.set i { g.nodes.getD i default with execution_status := s }, g.edges⟩

/-- Parent indices of node `i`: sources of incoming edges
(graph.neighbors_directed(i, Incoming); iteration order does not matter
for any property proved here). -/
def Graph.parentsOf (g : Graph) (i : Nat) : List Nat :=
  (g.edges.filter (fun e => e.2 == i)).map (fun e => e.1)

/-- Child indices of node `i` (outgoing neighbors). -/
def Graph.childrenOf (g : Graph) (i : Nat) : List Nat :=
  (g.edges.filter (fun e => e.1 == i)).map (fun e => e.2)

theorem Graph.setStatus_nodes_length (g : Graph) (i : Nat) (s : ExecutionStatus) :
    (g.setStatus i s).nodes.length = g.nodes.length := by
  simp [Graph.setStatus]

theorem Graph.setStatus_edges (g : Graph) (i : Nat) (s : ExecutionStatus) :
    (g.setStatus i s).edges = g.edges := rfl

theorem Graph.statusOf_setStatus_ne (g : Graph) (i : Nat) (s : ExecutionStatus)
    (m : Nat) (hm : m ≠ i) : (g.setStatus i s).statusOf m = g.statusOf m := by
  simp [Graph.setStatus, Graph.statusOf, List.getD, List.getElem?_set_ne (Ne.symm hm)]

theorem Graph.statusOf_setStatus_self (g : Graph) (i : Nat) (s : ExecutionStatus)
    (hi : i < g.nodes.length) : (g.setStatus i s).statusOf i = s := by
  simp [Graph.setStatus, Graph.statusOf, List.getD, List.getElem?_set_eq_of_lt _ hi]

theorem Graph.parentsOf_setStatus (g : Graph) (i : Nat) (s : ExecutionStatus)
    (m : Nat) : (g.setStatus i s).parentsOf m = g.parentsOf m := rfl

/-- The predecessor status the update demands, one arm per requested status;
this is the `old_execution_status` match at the top of
shm_compare_node_execution_status_and_update (the NonExecutable arm, which
returns the error in the source, is the `none` case here). -/
def requiredOldStatus : ExecutionStatus → Option ExecutionStatus
  | .NonExecutable => none
  | .Executable => some .NonExecutable
  | .Executing => some .Executable
  | .Executed => some .Executing

/-- shm_compare_node_execution_status_and_update from
src/shared_memory_graph/shm_graph.rs.  The shared mapping is modelled by
the graph value it stores (the rmp_serde byte codec is external and
round-trip stable per spec section 4.4).  The result pairs the Rust return
value (None on committed write, Some(current graph) on mismatch) with the
state of the shared mapping after the call. -/
def shm_compare_node_execution_status_and_update (shm : Graph) (node_index : Nat)
    (new_execution_status : ExecutionStatus) :
    Except (List Char) (Option Graph × Graph) :=
  match requiredOldStatus new_execution_status with
  | none =>
      .error ("New execution status cannot be ExecutionStatus::NonExecutable.".toList)
  | some old_execution_status =>
    if (shm.nodes.getD node_index default).execution_status = old_execution_status then
      .ok (none, shm.setStatus node_index new_execution_status)
    else
      .ok (some shm, shm)

theorem requiredOldStatus_rank (s old : ExecutionStatus)
    (h : requiredOldStatus s = some old) : statusRank old + 1 = statusRank s := by
  cases s with
  | NonExecutable => cases h
  | Executed => cases h; rfl
  | Executing => cases h; rfl
  | Executable => cases h; rfl

theorem shm_compare_ok_none (shm : Graph) (n : Nat) (s old : ExecutionStatus)
    (shm' : Graph) (hold : requiredOldStatus s = some old)
    (hok : shm_compare_node_execution_status_and_update shm n s = .ok (none, shm')) :
    shm.statusOf n = old ∧ shm' = shm.setStatus n s := by
  simp only [shm_compare_node_execution_status_and_update, hold] at hok
  split at hok
  · next hc =>
      refine ⟨hc, ?_⟩
      injection hok with h1
      injection h1 with h2 h3
      exact h3.symm
  · injection hok with h1
    injection h1 with h2 h3
    cases h2

theorem shm_compare_mismatch (shm : Graph) (n : Nat) (s old : ExecutionStatus)
    (hold : requiredOldStatus s = some old) (hneq : shm.statusOf n ≠ old) :
    shm_compare_node_execution_status_and_update shm n s = .ok (some shm, shm) := by
  simp only [shm_compare_node_execution_status_and_update, hold]
  simp only [Graph.statusOf] at hneq
  rw [if_neg hneq]

/-- C1: a successful (None-returning) call commits exactly the step from the
immediate predecessor of the requested status to it; nothing is committed on
mismatch; requesting NonExecutable errors out; hence committed transitions
never move backward or skip a step. -/
theorem C1_compare_node_status_single_step (shm : Graph) (n : Nat) (s : ExecutionStatus)
    (hn : n < shm.nodes.length) :
    (s = .NonExecutable →
       shm_compare_node_execution_status_and_update shm n s =
         .error ("New execution status cannot be ExecutionStatus::NonExecutable.".toList)) ∧
    (∀ shm', shm_compare_node_execution_status_and_update shm n s = .ok (none, shm') →
       ∃ old, requiredOldStatus s = some old ∧
         shm.statusOf n = old ∧
         shm' = shm.setStatus n s ∧
         (∀ m, m ≠ n → shm'.statusOf m = shm.statusOf m) ∧
         shm'.statusOf n = s ∧
         statusRank (shm.statusOf n) + 1 = statusRank s) ∧
    (∀ old, requiredOldStatus s = some old → shm.statusOf n ≠ old →
       shm_compare_node_execution_status_and_update shm n s = .ok (some shm, shm)) := by
  refine ⟨?_, ?_, ?_⟩
  · rintro rfl
    rfl
  · intro shm' hok
    have hsame : requiredOldStatus s ≠ none := by
      intro hnone
      unfold shm_compare_node_execution_status_and_update at hok
      rw [hnone] at hok
      cases hok
    obtain ⟨old, hold⟩ := Option.ne_none_iff_exists'.mp hsame
    obtain ⟨hst, rfl⟩ := shm_compare_ok_none shm n s old shm' hold hok
    refine ⟨old, hold, hst, rfl, ?_, ?_, ?_⟩
    · intro m hm
      exact Graph.statusOf_setStatus_ne shm n s m hm
    · exact Graph.statusOf_setStatus_self shm n s hn
    · rw [hst]
      exact requiredOldStatus_rank s old hold
  · intro old hold hneq
    exact shm_compare_mismatch shm n s old hold hneq

/-- Closed witness for C1 at a one-node graph in status Executable, requesting Executing. -/
theorem C1_compare_node_status_single_step_witness :
    ∃ shm', shm_compare_node_execution_status_and_update
        ⟨[⟨['a'], .Executable⟩], []⟩ 0 .Executing = .ok (none, shm') ∧
      statusRank ((Graph.mk [⟨['a'], .Executable⟩] []).statusOf 0) + 1 =
        statusRank .Executing := by
  have h := C1_compare_node_status_single_step ⟨[⟨['a'], .Executable⟩], []⟩ 0 .Executing
    (by decide)
  refine ⟨(Graph.mk [⟨['a'], .Executable⟩] []).setStatus 0 .Executing, rfl, ?_⟩
  obtain ⟨old, -, -, -, -, -, hrank⟩ := h.2.1
    ((Graph.mk [⟨['a'], .Executable⟩] []).setStatus 0 .Executing) rfl
  exact hrank


/-! ## C2: reachable states keep Executable nodes behind Executed parents -/

/-- A freshly constructed shared graph: a node starts Executable exactly when
it has no parents, NonExecutable otherwise (spec section 3, invariant 3). -/
def FreshInit (g : Graph) : Prop :=
  ∀ n < g.nodes.length,
    g.statusOf n = (if g.parentsOf n = [] then ExecutionStatus.Executable
                    else ExecutionStatus.NonExecutable)

/-- The scheduler's committed transitions on the shared graph, each one a
None-returning call of shm_compare_node_execution_status_and_update as issued
by execute_graph (src/shared_memory_graph/execute_graph.rs): claiming a node
(Executable to Executing), committing its execution (Executing to Executed),
and promoting a child after the all-parents-Executed check (NonExecutable to
Executable). -/
inductive SchedStep : Graph → Graph → Prop
  | claim (g g' : Graph) (n : Nat) (hn : n < g.nodes.length)
      (h : shm_compare_node_execution_status_and_update g n .Executing = .ok (none, g')) :
      SchedStep g g'
  | commit (g g' : Graph) (n : Nat) (hn : n < g.nodes.length)
      (h : shm_compare_node_execution_status_and_update g n .Executed = .ok (none, g')) :
      SchedStep g g'
  | promote (g g' : Graph) (n : Nat) (hn : n < g.nodes.length)
      (hguard : ∀ p ∈ g.parentsOf n, g.statusOf p = .Executed)
      (h : shm_compare_node_execution_status_and_update g n .Executable = .ok (none, g')) :
      SchedStep g g'

/-- Shared-graph states reachable from `g` by committed scheduler transitions. -/
def SchedReachable (g g' : Graph) : Prop := Relation.ReflTransGen SchedStep g g'

/-- The invariant of claim C2. -/
def ExecutableImpliesParentsExecuted (g : Graph) : Prop :=
  ∀ n < g.nodes.length, g.statusOf n = .Executable →
    ∀ p ∈ g.parentsOf n, g.statusOf p = .Executed

theorem SchedStep.preserves_shape (g g' : Graph) (h : SchedStep g g') :
    g'.nodes.length = g.nodes.length ∧ g'.edges = g.edges := by
  cases h with
  | claim n hn h =>
      obtain ⟨-, rfl⟩ := shm_compare_ok_none g n .Executing .Executable g' rfl h
      exact ⟨Graph.setStatus_nodes_length g n _, rfl⟩
  | commit n hn h =>
      obtain ⟨-, rfl⟩ := shm_compare_ok_none g n .Executed .Executing g' rfl h
      exact ⟨Graph.setStatus_nodes_length g n _, rfl⟩
  | promote n hn hguard h =>
      obtain ⟨-, rfl⟩ := shm_compare_ok_none g n .Executable .NonExecutable g' rfl h
      exact ⟨Graph.setStatus_nodes_length g n _, rfl⟩

theorem SchedStep.preserves_invariant (g g' : Graph) (h : SchedStep g g')
    (inv : ExecutableImpliesParentsExecuted g) :
    ExecutableImpliesParentsExecuted g' := by
  cases h with
  | claim n hn h =>
      obtain ⟨hst, rfl⟩ := shm_compare_ok_none g n .Executing .Executable g' rfl h
      intro m hm hexec p hp
      rw [Graph.setStatus_nodes_length] at hm
      rw [Graph.parentsOf_setStatus] at hp
      by_cases hmn : m = n
      · subst hmn
        rw [Graph.statusOf_setStatus_self g m _ hm] at hexec
        cases hexec
      · rw [Graph.statusOf_setStatus_ne g n _ m hmn] at hexec
        have hpexec := inv m hm hexec p hp
        by_cases hpn : p = n
        · subst hpn
          rw [hst] at hpexec
          cases hpexec
        · rw [Graph.statusOf_setStatus_ne g n _ p hpn]
          exact hpexec
  | commit n hn h =>
      obtain ⟨hst, rfl⟩ := shm_compare_ok_none g n .Executed .Executing g' rfl h
      intro m hm hexec p hp
      rw [Graph.setStatus_nodes_length] at hm
      rw [Graph.parentsOf_setStatus] at hp
      by_cases hmn : m = n
      · subst hmn
        rw [Graph.statusOf_setStatus_self g m _ hm] at hexec
        cases hexec
      · rw [Graph.statusOf_setStatus_ne g n _ m hmn] at hexec
        have hpexec := inv m hm hexec p hp
        by_cases hpn : p = n
        · subst hpn
          exact Graph.statusOf_setStatus_self g p _ hn
        · rw [Graph.statusOf_setStatus_ne g n _ p hpn]
          exact hpexec
  | promote n hn hguard h =>
      obtain ⟨hst, rfl⟩ := shm_compare_ok_none g n .Executable .NonExecutable g' rfl h
      intro m hm hexec p hp
      rw [Graph.setStatus_nodes_length] at hm
      rw [Graph.parentsOf_setStatus] at hp
      by_cases hmn : m = n
      · subst hmn
        have hpexec := hguard p hp
        by_cases hpn : p = m
        · subst hpn
          rw [hst] at hpexec
          cases hpexec
        · rw [Graph.statusOf_setStatus_ne g m _ p hpn]
          exact hpexec
      · rw [Graph.statusOf_setStatus_ne g n _ m hmn] at hexec
        have hpexec := inv m hm hexec p hp
        by_cases hpn : p = n
        · subst hpn
          rw [hst] at hpexec
          cases hpexec
        · rw [Graph.statusOf_setStatus_ne g n _ p hpn]
          exact hpexec

/-- C2: in every shared-graph state reachable from a freshly constructed
graph by committed scheduler transitions, every Executable node has all its
parents Executed. -/
theorem C2_reachable_executable_parents_executed (g0 g : Graph)
    (hinit : FreshInit g0) (hreach : SchedReachable g0 g) :
    ExecutableImpliesParentsExecuted g := by
  have hbase : ExecutableImpliesParentsExecuted g0 := by
    intro n hn hexec p hp
    have := hinit n hn
    by_cases hpar : g0.parentsOf n = []
    · rw [hpar] at hp
      cases hp
    · rw [if_neg hpar] at this
      rw [this] at hexec
      cases hexec
  induction hreach with
  | refl => exact hbase
  | tail hsteps hstep ih => exact SchedStep.preserves_invariant _ _ hstep ih

/-- Closed witness for C2: a two-node chain, after claim, commit and promote. -/
theorem C2_reachable_executable_parents_executed_witness :
    ExecutableImpliesParentsExecuted
      (((Graph.mk [Node.new ['a'], ⟨['b'], .NonExecutable⟩] [(0, 1)]).setStatus 0
          .Executing).setStatus 0 .Executed) := by
  apply C2_reachable_executable_parents_executed
    (Graph.mk [Node.new ['a'], ⟨['b'], .NonExecutable⟩] [(0, 1)])
  · unfold FreshInit
    decide
  · refine Relation.ReflTransGen.tail
      (b := (Graph.mk [Node.new ['a'], ⟨['b'], .NonExecutable⟩] [(0, 1)]).setStatus 0
        .Executing)
      (Relation.ReflTransGen.single ?_) ?_
    · exact SchedStep.claim _ _ 0 (by decide) rfl
    · exact SchedStep.commit _ _ 0 (by decide) rfl

/-! ## Byte-cell layer: write_to_shm / read_from_shm / shm_compare_data_and_swap -/

/-- Big-endian bytes of `n` as a `w`-byte unsigned integer
(Rust `n.to_be_bytes()` where `w = sizeof(usize)`). -/
def natToBeBytes : Nat → Nat → List Nat
  | 0, _ => []
  | w + 1, n => natToBeBytes w (n / 256) ++ [n % 256]

/-- Big-endian value of a byte list (Rust `usize::from_be_bytes`). -/
def natFromBeBytes (bytes : List Nat) : Nat :=
  bytes.foldl (fun acc b => acc * 256 + b) 0

theorem natToBeBytes_length (w n : Nat) : (natToBeBytes w n).length = w := by
  induction w generalizing n with
  | zero => rfl
  | succ w ih => simp [natToBeBytes, ih]

theorem natFromBeBytes_natToBeBytes (w n : Nat) (h : n < 256 ^ w) :
    natFromBeBytes (natToBeBytes w n) = n := by
  induction w generalizing n with
  | zero =>
      simp only [Nat.pow_zero, Nat.lt_one_iff] at h
      subst h
      rfl
  | succ w ih =>
      have hdiv : n / 256 < 256 ^ w := by
        rw [Nat.div_lt_iff_lt_mul (by norm_num)]
        calc n < 256 ^ (w + 1) := h
        _ = 256 ^ w * 256 := by ring
      simp only [natToBeBytes, natFromBeBytes, List.foldl_append, List.foldl_cons,
        List.foldl_nil]
      have := ih (n / 256) hdiv
      simp only [natFromBeBytes] at this
      rw [this]
      omega

/-- `usize::MAX.to_be_bytes().len()` on a host whose usize is `w` bytes wide,
as computed at the top of write_to_shm and read_from_shm in
src/shared_memory/posix_shared_memory.rs. -/
def usize_buf_len (w : Nat) : Nat := (natToBeBytes w (256 ^ w - 1)).length

/-- write_to_shm (src/shared_memory/posix_shared_memory.rs): the cell
contents after writing `data_bytes` (the rmp_serde serialization of the
value) on a host with `w`-byte usize.  The source overwrites existing cells
in order and pops the surplus, so the final cell sequence is exactly the
length prefix followed by the payload. -/
def write_to_shm (w : Nat) (data_bytes : List Nat) : List Nat :=
  natToBeBytes w (usize_buf_len w + data_bytes.length) ++ data_bytes

/-- read_from_shm (src/shared_memory/posix_shared_memory.rs): reads the
first `w` cells as the big-endian total length, then returns the cells from
index `w` up to that total.  `none` models the panic/abort paths where the
needed cells do not exist or the slice bounds are invalid. -/
def read_from_shm (w : Nat) (cells : List Nat) : Option (List Nat) :=
  if w ≤ cells.length then
    let total_buf_len := natFromBeBytes (cells.take w)
    if w ≤ total_buf_len ∧ total_buf_len ≤ cells.length then
      some ((cells.take total_buf_len).drop w)
    else none
  else none

theorem read_from_shm_write_to_shm (w : Nat) (data_bytes : List Nat)
    (h : w + data_bytes.length < 256 ^ w) :
    read_from_shm w (write_to_shm w data_bytes) = some data_bytes := by
  have hlen : usize_buf_len w = w := by
    simp [usize_buf_len, natToBeBytes_length]
  have hplen : (natToBeBytes w (w + data_bytes.length)).length = w :=
    natToBeBytes_length _ _
  have htot : (write_to_shm w data_bytes).length = w + data_bytes.length := by
    simp [write_to_shm, hlen, hplen]
  have htake : (write_to_shm w data_bytes).take w = natToBeBytes w (w + data_bytes.length) := by
    simp only [write_to_shm, hlen]
    rw [List.take_left' hplen]
  have hval : natFromBeBytes ((write_to_shm w data_bytes).take w) = w + data_bytes.length := by
    rw [htake]
    exact natFromBeBytes_natToBeBytes w _ h
  simp only [read_from_shm, htot, hval]
  rw [if_pos (by omega), if_pos (by omega)]
  congr 1
  rw [List.take_of_length_le (by omega)]
  simp only [write_to_shm, hlen]
  rw [List.drop_left' hplen]

/-- C5 counterexample: on a host with 4-byte pointers the length prefix
computed by write_to_shm occupies sizeof(usize) = 4 cells, not 8; the code
uses `usize::MAX.to_be_bytes().len()`, which tracks the host pointer width. -/
theorem C5_counterexample_prefix_width_is_pointer_width :
    usize_buf_len 4 = 4 ∧ usize_buf_len 4 ≠ 8 ∧ write_to_shm 4 [] = [0, 0, 0, 4] := by
  refine ⟨by decide, by decide, ?_⟩
  decide

/-- C5 amended: on a 64-bit host (8-byte usize, as the spec fixes for the
wire format) the prefix occupies exactly 8 cells holding, big-endian,
8 plus the payload byte count, and read recovers the payload as the cells
from index 8 up to that total. -/
theorem C5_amended_length_prefix_layout (payload : List Nat)
    (h : 8 + payload.length < 2 ^ 64) :
    usize_buf_len 8 = 8 ∧
    write_to_shm 8 payload = natToBeBytes 8 (8 + payload.length) ++ payload ∧
    (natToBeBytes 8 (8 + payload.length)).length = 8 ∧
    natFromBeBytes ((write_to_shm 8 payload).take 8) = 8 + payload.length ∧
    read_from_shm 8 (write_to_shm 8 payload) = some payload := by
  have h8 : (8 : Nat) + payload.length < 256 ^ 8 := by
    have : (2 : Nat) ^ 64 = 256 ^ 8 := by norm_num
    omega
  have hlen : usize_buf_len 8 = 8 := by decide
  refine ⟨hlen, by simp [write_to_shm, hlen], natToBeBytes_length _ _, ?_, ?_⟩
  · have := read_from_shm_write_to_shm 8 payload h8
    simp only [write_to_shm, hlen]
    rw [List.take_left' (natToBeBytes_length _ _)]
    exact natFromBeBytes_natToBeBytes 8 _ h8
  · exact read_from_shm_write_to_shm 8 payload h8

/-- Closed witness for the C5 amended theorem at payload [1, 2, 3]. -/
theorem C5_amended_length_prefix_layout_witness :
    write_to_shm 8 [1, 2, 3] = [0, 0, 0, 0, 0, 0, 0, 11, 1, 2, 3] ∧
    read_from_shm 8 (write_to_shm 8 [1, 2, 3]) = some [1, 2, 3] := by
  refine ⟨by decide, ?_⟩
  exact (C5_amended_length_prefix_layout [1, 2, 3] (by norm_num)).2.2.2.2

/-- shm_compare_data_and_swap (src/shared_memory/posix_shared_memory.rs),
generic in the stored type `T` with its rmp_serde codec passed as `enc`/`dec`
(the codec is an external crate).  Run under the write lock in the source;
the lock makes the read-compare-write atomic, so it is modelled as one
function from the current cell contents to the Rust return value paired with
the cell contents after the call. -/
def shm_compare_data_and_swap {T : Type} [DecidableEq T] (enc : T → List Nat)
    (dec : List Nat → Option T) (cells : List Nat)
    (data_equal_to_shm data_write : T) : Except (List Char) (Option T × List Nat) :=
  match read_from_shm 8 cells with
  | none => .error ("Failed to read from shared memory".toList)
  | some data_bytes =>
    match dec data_bytes with
    | none => .error ("Failed to deserialize".toList)
    | some data_in_shm =>
      if data_in_shm = data_equal_to_shm then
        .ok (none, write_to_shm 8 (enc data_write))
      else
        .ok (some data_in_shm, cells)

/-- C4: when the stored value equals `expected` the CAS returns None and the
store afterwards reads back as `desired`; otherwise it returns Some(current)
and the cells are completely unchanged, so a subsequent read deserializes to
the same value as before the call. -/
theorem C4_compare_data_and_swap (T : Type) (inst : DecidableEq T)
    (enc : T → List Nat) (dec : List Nat → Option T) (cells : List Nat)
    (expected desired cur : T)
    (hdec : dec (enc desired) = some desired)
    (hlen : 8 + (enc desired).length < 2 ^ 64)
    (hcur : (read_from_shm 8 cells).bind dec = some cur) :
    (cur = expected →
       shm_compare_data_and_swap enc dec cells expected desired =
         .ok (none, write_to_shm 8 (enc desired)) ∧
       (read_from_shm 8 (write_to_shm 8 (enc desired))).bind dec = some desired) ∧
    (cur ≠ expected →
       shm_compare_data_and_swap enc dec cells expected desired = .ok (some cur, cells) ∧
       (read_from_shm 8 cells).bind dec = some cur) := by
  obtain ⟨data_bytes, hread, hdecoded⟩ : ∃ b, read_from_shm 8 cells = some b ∧ dec b = some cur := by
    cases hr : read_from_shm 8 cells with
    | none => rw [hr] at hcur; cases hcur
    | some b =>
        rw [hr] at hcur
        exact ⟨b, rfl, hcur⟩
  constructor
  · rintro rfl
    constructor
    · simp [shm_compare_data_and_swap, hread, hdecoded]
    · rw [(C5_amended_length_prefix_layout (enc desired) hlen).2.2.2.2]
      simpa using hdec
  · intro hne
    constructor
    · simp only [shm_compare_data_and_swap, hread, hdecoded]
      rw [if_neg hne]
    · rw [hread]
      simpa using hdecoded

/-- Closed witness for C4 with the identity codec on byte lists. -/
theorem C4_compare_data_and_swap_witness :
    shm_compare_data_and_swap (T := List Nat) id some (write_to_shm 8 [1, 2]) [1, 2] [3] =
      .ok (none, write_to_shm 8 [3]) := by
  have h := C4_compare_data_and_swap (List Nat) inferInstance id some
    (write_to_shm 8 [1, 2]) [1, 2] [3] [1, 2] rfl (by norm_num) (by decide)
  exact (h.1 rfl).1

/-! ## DirectedAcyclicGraph::new (C6, C10) -/

/-- Bounded reachability along edges: `reachNB edges k a b` holds when there
is a directed path of exactly `k` edges from `a` to `b`. -/
def reachNB (edges : List (Nat × Nat)) : Nat → Nat → Nat → Bool
  | 0, a, b => a == b
  | k + 1, a, b => edges.any (fun e => e.1 == a && reachNB edges k e.2 b)

/-- Modelled from the spec: petgraph's `Acyclic::try_from_graph` (an external
crate) rejects a graph exactly when it has a directed cycle; with all edge
endpoints below `n`, a cycle exists iff some node lies on a directed cycle of
length between 1 and `n`. -/
def acyclicB (n : Nat) (edges : List (Nat × Nat)) : Bool :=
  !((List.range n).any (fun v => (List.range n).any (fun k => reachNB edges (k + 1) v v)))

/-- Position assigned to a string key by the node-population step of
DirectedAcyclicGraph::new: the nodes map is iterated in order (ascending keys
for the Rust BTreeMap) and add_node hands out consecutive indices, so the
index of a key is its position in the entry list. -/
def keyIndexOf (nodes : List (List Char × Node)) (key : List Char) : Option Nat :=
  nodes.findIdx? (fun kv => kv.1 == key)

/-- The edges DirectedAcyclicGraph::new actually inserts: input edges whose
parent and child keys are both present, translated to index pairs (edges with
a missing endpoint are skipped with a printed message, a side effect not
modelled). -/
def keptEdges (nodes : List (List Char × Node)) (edges : List Edge) : List (Nat × Nat) :=
  edges.filterMap (fun e =>
    match keyIndexOf nodes e.parent, keyIndexOf nodes e.child with
    | some p, some c => some (p, c)
    | _, _ => none)

/-- The node weights in map-iteration order, as inserted by
DirectedAcyclicGraph::new before any edge is added. -/
def nodeValuesOf (nodes : List (List Char × Node)) : List Node :=
  nodes.map (fun kv => kv.2)

/-- The per-edge status write in DirectedAcyclicGraph::new: each inserted
edge sets its child node's status to NonExecutable. -/
def applyChildStatuses (nodes : List Node) (kept : List (Nat × Nat)) : List Node :=
  kept.foldl
    (fun acc e => acc.set e.2 ⟨(acc.getD e.2 default).args, .NonExecutable⟩)
    nodes

/-- DirectedAcyclicGraph::new (src/graph_structure/graph.rs): populate nodes
in map-iteration order, insert edges with both endpoints present while
marking children NonExecutable, then fail iff the result has a cycle.  The
`nodes` argument is the entry list of the Rust BTreeMap in ascending key
order. -/
def DirectedAcyclicGraph.new (nodes : List (List Char × Node)) (edges : List Edge) :
    Except (List Char) Graph :=
  let node_values := nodeValuesOf nodes
  let kept := keptEdges nodes edges
  if acyclicB nodes.length kept then
    .ok ⟨applyChildStatuses node_values kept, kept⟩
  else
    .error ("Cyclic graph supplied".toList)

theorem DirectedAcyclicGraph.new_ok (nodes : List (List Char × Node)) (edges : List Edge)
    (g : Graph) (h : DirectedAcyclicGraph.new nodes edges = .ok g) :
    acyclicB nodes.length (keptEdges nodes edges) = true ∧
    g = ⟨applyChildStatuses (nodeValuesOf nodes) (keptEdges nodes edges),
         keptEdges nodes edges⟩ := by
  simp only [DirectedAcyclicGraph.new] at h
  split at h
  · next hacyc =>
      refine ⟨hacyc, ?_⟩
      injection h with h
      exact h.symm
  · cases h

theorem findIdx?_lt_aux {α : Type} {p : α → Bool} :
    ∀ (l : List α) (s i : Nat), List.findIdx? p l s = some i → i < s + l.length := by
  intro l
  induction l with
  | nil => intro s i h; cases h
  | cons x xs ih =>
      intro s i h
      rw [List.findIdx?_cons] at h
      by_cases hx : p x
      · rw [if_pos hx] at h
        cases h
        simp
      · rw [if_neg hx] at h
        have := ih (s + 1) i h
        simp only [List.length_cons]
        omega

theorem findIdx?_lt_length {α : Type} {p : α → Bool} {l : List α} {i : Nat}
    (h : l.findIdx? p = some i) : i < l.length := by
  have := findIdx?_lt_aux l 0 i h
  omega

theorem keptEdges_valid (nodes : List (List Char × Node)) (edges : List Edge) :
    ∀ e ∈ keptEdges nodes edges, e.1 < nodes.length ∧ e.2 < nodes.length := by
  intro e he
  simp only [keptEdges, List.mem_filterMap] at he
  obtain ⟨a, -, ha⟩ := he
  cases hp : keyIndexOf nodes a.parent with
  | none => rw [hp] at ha; cases ha
  | some p =>
      cases hc : keyIndexOf nodes a.child with
      | none => rw [hp, hc] at ha; cases ha
      | some c =>
          rw [hp, hc] at ha
          cases ha
          exact ⟨findIdx?_lt_length hp, findIdx?_lt_length hc⟩

theorem getD_set_self (l : List Node) (i : Nat) (v : Node) (h : i < l.length) :
    (l.set i v).getD i default = v := by
  simp [List.getD, List.getElem?_set_eq_of_lt _ h]

theorem getD_set_ne (l : List Node) (i j : Nat) (v : Node) (h : i ≠ j) :
    (l.set i v).getD j default = l.getD j default := by
  simp [List.getD, List.getElem?_set_ne h]

theorem applyChildStatuses_cons (nodes : List Node) (e : Nat × Nat)
    (rest : List (Nat × Nat)) :
    applyChildStatuses nodes (e :: rest) =
      applyChildStatuses (nodes.set e.2 ⟨(nodes.getD e.2 default).args, .NonExecutable⟩)
        rest := rfl

theorem applyChildStatuses_length (nodes : List Node) (kept : List (Nat × Nat)) :
    (applyChildStatuses nodes kept).length = nodes.length := by
  induction kept generalizing nodes with
  | nil => rfl
  | cons e rest ih =>
      rw [applyChildStatuses_cons, ih]
      simp

theorem applyChildStatuses_status (nodes : List Node) (kept : List (Nat × Nat))
    (hvalid : ∀ e ∈ kept, e.2 < nodes.length) (n : Nat) :
    ((applyChildStatuses nodes kept).getD n default).execution_status =
      (if kept.any (fun e => e.2 == n) then ExecutionStatus.NonExecutable
       else (nodes.getD n default).execution_status) := by
  induction kept generalizing nodes with
  | nil => simp [applyChildStatuses]
  | cons e rest ih =>
      have he2 : e.2 < nodes.length := hvalid e (by simp)
      have hvalid' : ∀ a ∈ rest,
          a.2 < (nodes.set e.2 ⟨(nodes.getD e.2 default).args, .NonExecutable⟩).length := by
        intro a ha
        simpa using hvalid a (by simp [ha])
      rw [applyChildStatuses_cons, ih _ hvalid']
      by_cases hr : rest.any (fun a => a.2 == n)
      · rw [if_pos hr, if_pos (by simp [List.any_cons, hr])]
      · rw [if_neg hr]
        by_cases hen : e.2 = n
        · subst hen
          rw [getD_set_self _ _ _ he2, if_pos (by simp [List.any_cons])]
        · rw [getD_set_ne _ _ _ _ hen,
            if_neg (by simp [List.any_cons, hr]; exact fun hh => absurd hh hen)]

theorem parentsOf_nil_iff_no_child (g : Graph) (n : Nat) :
    g.parentsOf n = [] ↔ g.edges.any (fun e => e.2 == n) = false := by
  simp [Graph.parentsOf, List.filter_eq_nil_iff, List.any_eq_false]

/-- C6 counterexample: new accepts a map whose only node was supplied with
status NonExecutable and no edges; the node has no incoming edges yet its
status in the returned graph is not Executable. -/
theorem C6_counterexample_input_status_kept :
    DirectedAcyclicGraph.new [(['0'], ⟨['x'], .NonExecutable⟩)] [] =
      .ok ⟨[⟨['x'], .NonExecutable⟩], []⟩ ∧
    (Graph.mk [⟨['x'], .NonExecutable⟩] []).parentsOf 0 = [] ∧
    (Graph.mk [⟨['x'], .NonExecutable⟩] []).statusOf 0 ≠ .Executable := by
  refine ⟨rfl, by decide, by decide⟩

/-- C6 amended: when every node in the input map carries status Executable
(as Node::new produces), a node of the returned graph is Executable iff it
has no incoming edges, and NonExecutable otherwise. -/
theorem C6_amended_initial_status_iff_no_incoming
    (nodes : List (List Char × Node)) (edges : List Edge) (g : Graph)
    (hok : DirectedAcyclicGraph.new nodes edges = .ok g)
    (hfresh : ∀ kv ∈ nodes, kv.2.execution_status = .Executable) :
    ∀ n < g.nodes.length,
      (g.statusOf n = .Executable ↔ g.parentsOf n = []) ∧
      (g.statusOf n = .Executable ∨ g.statusOf n = .NonExecutable) := by
  obtain ⟨hacyc, rfl⟩ := DirectedAcyclicGraph.new_ok nodes edges g hok
  intro n hn
  simp only [applyChildStatuses_length, nodeValuesOf, List.length_map] at hn
  have hvalid' : ∀ e ∈ keptEdges nodes edges, e.2 < (nodeValuesOf nodes).length := by
    intro e he
    simpa [nodeValuesOf] using (keptEdges_valid nodes edges e he).2
  have hmap : n < (nodeValuesOf nodes).length := by simpa [nodeValuesOf] using hn
  have hbase : ((nodeValuesOf nodes).getD n default).execution_status = .Executable := by
    rw [List.getD_eq_getElem _ _ hmap]
    simp only [nodeValuesOf, List.getElem_map]
    exact hfresh _ (List.getElem_mem hn)
  have hstat : Graph.statusOf ⟨applyChildStatuses (nodeValuesOf nodes)
      (keptEdges nodes edges), keptEdges nodes edges⟩ n =
      (if (keptEdges nodes edges).any (fun e => e.2 == n) then ExecutionStatus.NonExecutable
       else ExecutionStatus.Executable) := by
    simp only [Graph.statusOf]
    rw [applyChildStatuses_status _ _ hvalid' n, hbase]
  have hpar : Graph.parentsOf ⟨applyChildStatuses (nodeValuesOf nodes)
      (keptEdges nodes edges), keptEdges nodes edges⟩ n = [] ↔
      (keptEdges nodes edges).any (fun e => e.2 == n) = false :=
    parentsOf_nil_iff_no_child _ n
  by_cases hany : (keptEdges nodes edges).any (fun e => e.2 == n) = true
  · rw [hstat, if_pos hany]
    have hparr : ¬ (Graph.parentsOf ⟨applyChildStatuses (nodeValuesOf nodes)
        (keptEdges nodes edges), keptEdges nodes edges⟩ n = []) := by
      rw [hpar, hany]
      intro hh
      cases hh
    exact ⟨⟨fun h => absurd h (by simp), fun h => absurd h hparr⟩, Or.inr rfl⟩
  · have hany' : (keptEdges nodes edges).any (fun e => e.2 == n) = false := by
      cases hb : (keptEdges nodes edges).any (fun e => e.2 == n)
      · rfl
      · exact absurd hb hany
    rw [hstat, if_neg hany]
    exact ⟨⟨fun _ => hpar.mpr hany', fun _ => rfl⟩, Or.inl rfl⟩

/-- Closed witness for the amended C6 on a two-node, one-edge graph,
evaluated at both node indices. -/
theorem C6_amended_initial_status_iff_no_incoming_witness :
    ((Graph.mk [Node.new ['a'], ⟨['b'], .NonExecutable⟩] [(0, 1)]).statusOf 0 =
        .Executable ↔
      (Graph.mk [Node.new ['a'], ⟨['b'], .NonExecutable⟩] [(0, 1)]).parentsOf 0 = []) ∧
    ((Graph.mk [Node.new ['a'], ⟨['b'], .NonExecutable⟩] [(0, 1)]).statusOf 1 =
        .Executable ↔
      (Graph.mk [Node.new ['a'], ⟨['b'], .NonExecutable⟩] [(0, 1)]).parentsOf 1 = []) := by
  have h := C6_amended_initial_status_iff_no_incoming
    [(['a'], Node.new ['a']), (['b'], Node.new ['b'])]
    [Edge.new ['a'] ['b']]
    ⟨[Node.new ['a'], ⟨['b'], .NonExecutable⟩], [(0, 1)]⟩
    rfl
    (by decide)
  exact ⟨(h 0 (by decide)).1, (h 1 (by decide)).1⟩

/-- C10: edges with an undefined endpoint never fail construction: they are
dropped, construction succeeds whenever the kept edges are acyclic, and every
edge of the returned graph has both endpoints among the existing nodes. -/
theorem C10_unknown_endpoints_are_dropped (nodes : List (List Char × Node)) (edges : List Edge)
    (hacyc : acyclicB nodes.length (keptEdges nodes edges) = true) :
    ∃ g, DirectedAcyclicGraph.new nodes edges = .ok g ∧
      g.edges = keptEdges nodes edges ∧
      g.nodes.length = nodes.length ∧
      ∀ e ∈ g.edges, e.1 < g.nodes.length ∧ e.2 < g.nodes.length := by
  refine ⟨⟨applyChildStatuses (nodeValuesOf nodes) (keptEdges nodes edges),
    keptEdges nodes edges⟩, ?_, rfl, ?_, ?_⟩
  · simp only [DirectedAcyclicGraph.new]
    rw [if_pos hacyc]
  · simp [applyChildStatuses_length, nodeValuesOf]
  · intro e he
    have := keptEdges_valid nodes edges e he
    simpa [applyChildStatuses_length, nodeValuesOf] using this

/-- Closed witness for C10: an edge to the undeclared key "zzz" is dropped. -/
theorem C10_unknown_endpoints_are_dropped_witness :
    ∃ g, DirectedAcyclicGraph.new
        [(['a'], Node.new ['a']), (['b'], Node.new ['b'])]
        [Edge.new ['a'] ['b'], Edge.new ['a'] ['z', 'z', 'z']] = .ok g ∧
      g.edges = [(0, 1)] := by
  obtain ⟨g, hok, hedges, -, -⟩ := C10_unknown_endpoints_are_dropped
    [(['a'], Node.new ['a']), (['b'], Node.new ['b'])]
    [Edge.new ['a'] ['b'], Edge.new ['a'] ['z', 'z', 'z']]
    (by decide)
  refine ⟨g, hok, ?_⟩
  rw [hedges]
  decide

/-! ## C9: AlreadyExists fallback at mapping creation in execute_graph -/

/-- `filename_prefix.replace("/", "_")` as performed by PosixSharedMemory::new
and PosixSharedMemory::open (src/shared_memory/posix_shared_memory.rs). -/
def sanitizeName (p : List Char) : List Char :=
  p.map (fun c => if c = '/' then '_' else c)

/-- Modelled from the spec: sem_open with O_CREAT|O_EXCL on an existing name
(an OS primitive, spec section 4.1 create fails if the name exists) sets
errno 17; Semaphore::create (src/shared_memory/semaphore.rs) then formats
the error through get_last_error as
"Failed to create semaphore NAME: File exists (errno: 17)". -/
def semaphoreCreateExistsMsg (name : List Char) : List Char :=
  "Failed to create semaphore ".toList ++ name ++ ": File exists (errno: 17)".toList

/-- The error text PosixSharedMemory::new produces when the write_lock
semaphore already exists: the semaphore error for "/SANITIZED_write_lock"
wrapped in "Failed to create write_lock: ". -/
def posixNewWriteLockExistsMsg (p : List Char) : List Char :=
  "Failed to create write_lock: ".toList ++
    semaphoreCreateExistsMsg (("/".toList ++ sanitizeName p) ++ "_write_lock".toList)

/-- The string execute_graph (src/shared_memory_graph/execute_graph.rs)
compares the creation error against, formatted with the raw, unsanitized
filename prefix. -/
def executeGraphExpectedMsg (p : List Char) : List Char :=
  ("Failed to create write_lock: Failed to create semaphore /".toList ++ p) ++
    "_write_lock: File exists (errno: 17)".toList

/-- Outcome of the mapping-creation step at the top of execute_graph. -/
inductive MappingInit where
  | createdFresh
  | openedExisting
  | aborted
deriving DecidableEq, Repr

/-- The match on PosixSharedMemory::new at the top of execute_graph: when
creation fails because the write_lock semaphore already exists, the error
text is compared with the expected formatted message; on a match the
existing mapping is opened, otherwise the worker aborts with an error. -/
def executeGraphMappingInit (p : List Char) (write_lock_exists : Bool) : MappingInit :=
  if write_lock_exists then
    if posixNewWriteLockExistsMsg p = executeGraphExpectedMsg p then .openedExisting
    else .aborted
  else .createdFresh

/-- C9 counterexample: for the prefix "a/b" (which contains a slash), the
creation error mentions the sanitized name while execute_graph expects the
raw one, so the fallback is not taken and the worker aborts. -/
theorem C9_counterexample_slash_in_prefix :
    executeGraphMappingInit ['a', '/', 'b'] true = .aborted := by decide

theorem sanitizeName_eq_self (p : List Char) (h : '/' ∉ p) : sanitizeName p = p := by
  induction p with
  | nil => rfl
  | cons c cs ih =>
      simp only [sanitizeName, List.map_cons] at ih ⊢
      have hc : ¬ (c = '/') := by
        intro hh
        subst hh
        exact h (List.mem_cons_self _ _)
      rw [if_neg hc, ih fun hm => h (List.mem_cons_of_mem _ hm)]

/-- C9 amended: for every prefix without a slash, when creating the shared
mapping fails because the write_lock semaphore already exists, execute_graph
falls back to opening the existing mapping instead of aborting. -/
theorem C9_amended_already_exists_falls_back_to_open (p : List Char) (h : '/' ∉ p) :
    executeGraphMappingInit p true = .openedExisting := by
  have hmsg : posixNewWriteLockExistsMsg p = executeGraphExpectedMsg p := by
    simp only [posixNewWriteLockExistsMsg, executeGraphExpectedMsg, semaphoreCreateExistsMsg,
      sanitizeName_eq_self p h, List.append_assoc]
    rfl
  simp only [executeGraphMappingInit, if_pos hmsg, if_true]

/-- Closed witness for the amended C9 at the prefix "T1". -/
theorem C9_amended_already_exists_falls_back_to_open_witness :
    executeGraphMappingInit ['T', '1'] true = .openedExisting :=
  C9_amended_already_exists_falls_back_to_open ['T', '1'] (by decide)

/-! ## DOT text form: Display and FromStr (C7, C8) -/

/-- The opening brace character (0x7b). -/
def lbrace : Char := Char.ofNat 123

/-- The closing brace character (0x7d). -/
def rbrace : Char := Char.ofNat 125

/-- Whitespace for Rust str::trim (the ASCII subset; the DOT text form
produced and consumed here contains no other whitespace characters). -/
def isWs (c : Char) : Bool := c = ' ' || c = '\t' || c = '\n' || c = '\r'

/-- str::trim on a character list. -/
def trimChars (l : List Char) : List Char :=
  ((l.dropWhile isWs).reverse.dropWhile isWs).reverse

/-- str::split with a one-character pattern: adjacent separators produce
empty chunks, like Rust's split. -/
def splitOnChar (c : Char) : List Char → List (List Char)
  | [] => [[]]
  | x :: xs =>
    match splitOnChar c xs with
    | [] => [[]]
    | h :: t => if x = c then [] :: h :: t else (x :: h) :: t

/-- str::split("->"): split on non-overlapping left-to-right occurrences of
the two-character arrow. -/
def splitOnArrow : List Char → List (List Char)
  | [] => [[]]
  | [x] => [[x]]
  | x :: y :: xs =>
    if x = '-' ∧ y = '>' then
      [] :: splitOnArrow xs
    else
      match splitOnArrow (y :: xs) with
      | [] => [[x]]
      | h :: t => (x :: h) :: t

/-- chars().all(is_ascii_digit), true on the empty string as in Rust. -/
def isAsciiDigits (s : List Char) : Bool := s.all (fun c => c.isDigit)

/-- Display for ExecutionStatus (src/graph_structure/execution_status.rs). -/
def ExecutionStatus.display : ExecutionStatus → List Char
  | .Executed => "Executed".toList
  | .Executing => "Executing".toList
  | .Executable => "Executable".toList
  | .NonExecutable => "NonExecutable".toList

/-- ExecutionStatus::from_str (src/graph_structure/execution_status.rs). -/
def ExecutionStatus.fromStr (s : List Char) : Except (List Char) ExecutionStatus :=
  if s = "Executed".toList then .ok .Executed
  else if s = "Executing".toList then .ok .Executing
  else if s = "Executable".toList then .ok .Executable
  else if s = "NonExecutable".toList then .ok .NonExecutable
  else .error ("ExecutionStatus::from_str parsing error: Invalid execution status.".toList)

/-- Display for Node (src/graph_structure/node.rs). -/
def Node.display (nd : Node) : List Char :=
  "Struct Node, Node.args: ".toList ++ nd.args ++ ", Node.execution_status: ".toList ++
    nd.execution_status.display

/-- The comma-separated-parts loop of Node::from_str: each part may set the
args (strip " Node.args: ") or the status (strip " Node.execution_status: ",
then parse); other parts are ignored. -/
def nodePartsFold : List (List Char) → Node → Except (List Char) Node
  | [], node => .ok node
  | part :: rest, node =>
    if " Node.args: ".toList.isPrefixOf part then
      nodePartsFold rest ⟨part.drop (" Node.args: ".toList.length), node.execution_status⟩
    else if " Node.execution_status: ".toList.isPrefixOf part then
      match ExecutionStatus.fromStr (part.drop (" Node.execution_status: ".toList.length)) with
      | .error e => .error e
      | .ok st => nodePartsFold rest ⟨node.args, st⟩
    else
      nodePartsFold rest node

/-- Node::from_str (src/graph_structure/node.rs): start from the default
node, then fold the comma-separated parts of the trimmed input. -/
def Node.fromStr (node_string : List Char) : Except (List Char) Node :=
  nodePartsFold (splitOnChar ',' (trimChars node_string)) ⟨[], .Executable⟩

/-- Lexicographic byte order on keys, the Ord of Rust String used by the
BTreeMap in DirectedAcyclicGraph::from_str (ASCII keys, so char order
coincides with byte order). -/
def keyLtB : List Char → List Char → Bool
  | [], [] => false
  | [], _ :: _ => true
  | _ :: _, [] => false
  | x :: xs, y :: ys =>
    if x.toNat < y.toNat then true
    else if x.toNat = y.toNat then keyLtB xs ys
    else false

/-- BTreeMap modelled as an association list sorted by key:
insert keeps the order and overwrites an existing binding. -/
def mapInsert (m : List (List Char × Node)) (k : List Char) (v : Node) :
    List (List Char × Node) :=
  match m with
  | [] => [(k, v)]
  | (k', v') :: rest =>
    if keyLtB k k' then (k, v) :: (k', v') :: rest
    else if k = k' then (k, v) :: rest
    else (k', v') :: mapInsert rest k v

/-- BTreeMap::contains_key. -/
def mapContains (m : List (List Char × Node)) (k : List Char) : Bool :=
  m.any (fun kv => kv.1 == k)

/-- The per-chain-element loop of the compact branch of
DirectedAcyclicGraph::from_str: declare each yet-unknown identifier as a
fresh Node::new and push an edge from the previous element. -/
def compactChainFold : List (List Char) → Option (List Char) →
    List (List Char × Node) → List Edge → List (List Char × Node) × List Edge
  | [], _, nodes, edges => (nodes, edges)
  | ident :: rest, prev, nodes, edges =>
    let nodes' := if mapContains nodes ident then nodes else mapInsert nodes ident (Node.new ident)
    let edges' :=
      match prev with
      | none => edges
      | some pident => edges ++ [Edge.new pident ident]
    compactChainFold rest (some ident) nodes' edges'

/-- The semicolon strip at the top of the line loop of
DirectedAcyclicGraph::from_str. -/
def stripSemicolon (line : List Char) : List Char :=
  if line ≠ [] ∧ line.getLast? = some ';' then line.dropLast else line

/-- line.trim().split(" ").map(|s| s.trim()) from the line loop. -/
def tokensOf (line : List Char) : List (List Char) :=
  (splitOnChar ' ' (trimChars line)).map trimChars

/-- The node-line pattern guard of the line loop. -/
def nodeLineCond (tokens : List (List Char)) : Prop :=
  6 ≤ tokens.length ∧ isAsciiDigits (tokens.getD 0 []) = true ∧
    tokens.getD 1 [] = "[".toList ∧ tokens.getD 2 [] = "label".toList ∧
    tokens.getD 3 [] = "=".toList ∧ tokens.getD 4 [] = "\"Struct".toList ∧
    tokens.getD 5 [] = "Node,".toList ∧ tokens.getD 6 [] = "Node.args:".toList

instance (tokens : List (List Char)) : Decidable (nodeLineCond tokens) := by
  unfold nodeLineCond
  infer_instance

/-- The edge-line pattern guard of the line loop. -/
def edgeLineCond (tokens : List (List Char)) : Prop :=
  4 ≤ tokens.length ∧ isAsciiDigits (tokens.getD 0 []) = true ∧
    tokens.getD 1 [] = "->".toList ∧ isAsciiDigits (tokens.getD 2 []) = true ∧
    tokens.getD 3 [] = "[".toList ∧ tokens.getD 4 [] = "]".toList

instance (tokens : List (List Char)) : Decidable (edgeLineCond tokens) := by
  unfold edgeLineCond
  infer_instance

/-- The compact-chain pattern guard of the line loop. -/
def compactLineCond (tokens : List (List Char)) : Prop :=
  3 ≤ tokens.length ∧ tokens.getD 1 [] = "->".toList

instance (tokens : List (List Char)) : Decidable (compactLineCond tokens) := by
  unfold compactLineCond
  infer_instance

/-- One line of the loop body of DirectedAcyclicGraph::from_str
(src/graph_structure/graph.rs), on the already semicolon-stripped line and
its tokens: try the node-line, the edge-line and the compact-chain patterns
in that order. -/
def parseLineWith (line1 : List Char) (tokens : List (List Char))
    (nodes : List (List Char × Node)) (edges : List Edge) :
    Except (List Char) (List (List Char × Node) × List Edge) :=
  if nodeLineCond tokens then
    match (splitOnChar '"' line1).get? 1 with
    | none =>
        .error ("DirectedAcyclicGraph::from_str parsing error: No node label.".toList)
    | some label =>
      match Node.fromStr label with
      | .error e => .error e
      | .ok nd => .ok (mapInsert nodes (tokens.getD 0 []) nd, edges)
  else if edgeLineCond tokens then
    .ok (nodes, edges ++ [Edge.new (tokens.getD 0 []) (tokens.getD 2 [])])
  else if compactLineCond tokens then
    .ok (compactChainFold ((splitOnArrow line1).map trimChars) none nodes edges)
  else
    .ok (nodes, edges)

/-- One line of the loop body of DirectedAcyclicGraph::from_str: strip a
trailing semicolon, tokenize, dispatch on the three patterns. -/
def parseLine (line : List Char) (nodes : List (List Char × Node)) (edges : List Edge) :
    Except (List Char) (List (List Char × Node) × List Edge) :=
  parseLineWith (stripSemicolon line) (tokensOf (stripSemicolon line)) nodes edges

/-- The line loop of DirectedAcyclicGraph::from_str. -/
def parseLines : List (List Char) → List (List Char × Node) → List Edge →
    Except (List Char) (List (List Char × Node) × List Edge)
  | [], nodes, edges => .ok (nodes, edges)
  | line :: rest, nodes, edges =>
    match parseLine line nodes edges with
    | .error e => .error e
    | .ok (nodes', edges') => parseLines rest nodes' edges'

/-- DirectedAcyclicGraph::from_str (src/graph_structure/graph.rs): if the
trimmed input starts with "digraph", run the line loop on its lines and hand
the collected nodes map and edge list to new; otherwise new gets empty
input. -/
def DirectedAcyclicGraph.fromStr (dag_string : List Char) : Except (List Char) Graph :=
  if "digraph".toList.isPrefixOf (trimChars dag_string) then
    match parseLines (splitOnChar '\n' (trimChars dag_string)) [] [] with
    | .error e => .error e
    | .ok (nodes, edges) => DirectedAcyclicGraph.new nodes edges
  else
    DirectedAcyclicGraph.new [] []

/-- Decimal digits of a node index, as printed by petgraph. -/
def natToDigits (n : Nat) : List Char := Nat.toDigits 10 n

/-- One printed node line without its terminating newline, modelled from
the spec (section 4.5): petgraph's dot::Dot prints each node as four spaces,
the index, then the label holding the node's Display form (label escaping is
the identity on the payloads considered here, which contain no quote,
backslash or newline). -/
def nodeLineStr (i : Nat) (nd : Node) : List Char :=
  "    ".toList ++ natToDigits i ++ " [ label = \"".toList ++ Node.display nd ++
    "\" ]".toList

/-- One printed edge line (with Config::EdgeNoLabel), without its newline. -/
def edgeLineStr (e : Nat × Nat) : List Char :=
  "    ".toList ++ natToDigits e.1 ++ " -> ".toList ++ natToDigits e.2 ++ " [ ]".toList

/-- Display for DirectedAcyclicGraph, modelled from the spec (section 4.5):
the petgraph dot::Dot form "digraph {", all node lines in index order, all
edge lines in insertion order, each line terminated by a newline, and a
closing brace. -/
def graphLines (g : Graph) : List (List Char) :=
  (List.range g.nodes.length).map (fun i => nodeLineStr i (g.nodes.getD i default)) ++
    g.edges.map edgeLineStr

def displayGraph (g : Graph) : List Char :=
  ("digraph ".toList ++ [lbrace] ++ ['\n']) ++
    ((graphLines g).flatMap (fun l => l ++ ['\n']) ++ ([rbrace] ++ ['\n']))

/-- C8: parsing a digraph containing the compact form "a -> b -> c;" yields
exactly the three nodes a, b, c (payload = identifier) and the two edges
(a,b) and (b,c); the parsing stage declares each chain element via Node::new,
i.e. with status Executable. -/
theorem C8_compact_chain_three_nodes_two_edges :
    parseLines (splitOnChar '\n'
        (trimChars ("digraph ".toList ++ [lbrace] ++ "\na -> b -> c;\n".toList ++ [rbrace])))
        [] [] =
      .ok ([(['a'], Node.new ['a']), (['b'], Node.new ['b']), (['c'], Node.new ['c'])],
           [Edge.new ['a'] ['b'], Edge.new ['b'] ['c']]) ∧
    DirectedAcyclicGraph.fromStr
        ("digraph ".toList ++ [lbrace] ++ "\na -> b -> c;\n".toList ++ [rbrace]) =
      .ok ⟨[⟨['a'], .Executable⟩, ⟨['b'], .NonExecutable⟩, ⟨['c'], .NonExecutable⟩],
           [(0, 1), (1, 2)]⟩ := by
  constructor
  · rfl
  · rfl

/-! ### String lemmas for the round trip -/

theorem splitOnChar_cons (c x : Char) (xs : List Char) :
    splitOnChar c (x :: xs) =
      (match splitOnChar c xs with
       | [] => [[]]
       | h :: t => if x = c then [] :: h :: t else (x :: h) :: t) := rfl

theorem splitOnChar_ne_nil (c : Char) (l : List Char) : splitOnChar c l ≠ [] := by
  cases l with
  | nil => simp [splitOnChar]
  | cons x xs =>
      rw [splitOnChar_cons]
      cases h : splitOnChar c xs with
      | nil => simp
      | cons hh tt =>
          by_cases hx : x = c
          · simp [hx]
          · simp [hx]

theorem splitOnChar_append (c : Char) (xs ys : List Char) (h : c ∉ xs) :
    splitOnChar c (xs ++ c :: ys) = xs :: splitOnChar c ys := by
  induction xs with
  | nil =>
      rw [List.nil_append, splitOnChar_cons]
      cases hys : splitOnChar c ys with
      | nil => exact absurd hys (splitOnChar_ne_nil c ys)
      | cons hh tt => simp
  | cons x xt ih =>
      have hx : ¬ (x = c) := fun hh => h (hh ▸ List.mem_cons_self _ _)
      have ht : c ∉ xt := fun hm => h (List.mem_cons_of_mem _ hm)
      rw [List.cons_append, splitOnChar_cons, ih ht]
      simp [hx]

theorem splitOnChar_of_not_mem (c : Char) (xs : List Char) (h : c ∉ xs) :
    splitOnChar c xs = [xs] := by
  induction xs with
  | nil => rfl
  | cons x xt ih =>
      have hx : ¬ (x = c) := fun hh => h (hh ▸ List.mem_cons_self _ _)
      have ht : c ∉ xt := fun hm => h (List.mem_cons_of_mem _ hm)
      rw [splitOnChar_cons, ih ht]
      simp [hx]

theorem dropWhile_isWs_cons_false (x : Char) (l : List Char) (hx : isWs x = false) :
    (x :: l).dropWhile isWs = x :: l := by
  simp [List.dropWhile_cons, hx]

theorem dropWhile_isWs_cons_true (x : Char) (l : List Char) (hx : isWs x = true) :
    (x :: l).dropWhile isWs = l.dropWhile isWs := by
  simp [List.dropWhile_cons, hx]

theorem trimChars_cons_concat (x y : Char) (mid : List Char)
    (hx : isWs x = false) (hy : isWs y = false) :
    trimChars (x :: (mid ++ [y])) = x :: (mid ++ [y]) := by
  unfold trimChars
  rw [dropWhile_isWs_cons_false _ _ hx]
  have hrev : (x :: (mid ++ [y])).reverse = y :: (mid.reverse ++ [x]) := by
    simp
  rw [hrev, dropWhile_isWs_cons_false _ _ hy, ← hrev, List.reverse_reverse]

theorem trimChars_space_cons (l : List Char) : trimChars (' ' :: l) = trimChars l := by
  unfold trimChars
  rw [dropWhile_isWs_cons_true ' ' l rfl]

theorem trimChars_single (x : Char) (hx : isWs x = false) : trimChars [x] = [x] := by
  unfold trimChars
  rw [dropWhile_isWs_cons_false _ _ hx]
  simp [dropWhile_isWs_cons_false _ _ hx]

theorem isPrefixOf_append_self (l r : List Char) : l.isPrefixOf (l ++ r) = true := by
  induction l with
  | nil => simp [List.isPrefixOf]
  | cons x xt ih => simp [List.isPrefixOf, ih]

/-! ### Digit facts for node indices below 10 -/

theorem natToDigits_lt10 (i : Nat) (h : i < 10) :
    natToDigits i = [Char.ofNat (48 + i)] := by
  interval_cases i <;> rfl

theorem natToDigits_not_space (i : Nat) (h : i < 10) : ' ' ∉ natToDigits i := by
  interval_cases i <;> decide

theorem natToDigits_not_newline (i : Nat) (h : i < 10) : '\n' ∉ natToDigits i := by
  interval_cases i <;> decide

theorem natToDigits_not_quote (i : Nat) (h : i < 10) : '"' ∉ natToDigits i := by
  interval_cases i <;> decide

theorem natToDigits_isDigits (i : Nat) (h : i < 10) : isAsciiDigits (natToDigits i) = true := by
  interval_cases i <;> decide

theorem natToDigits_trim (i : Nat) (h : i < 10) : trimChars (natToDigits i) = natToDigits i := by
  interval_cases i <;> decide

theorem natToDigits_keyLtB (i j : Nat) (hj : j < 10) (hij : i < j) :
    keyLtB (natToDigits i) (natToDigits j) = true := by
  have hi : i < 10 := by omega
  interval_cases i <;> interval_cases j <;> decide

theorem natToDigits_inj (i j : Nat) (hi : i < 10) (hj : j < 10)
    (h : natToDigits i = natToDigits j) : i = j := by
  interval_cases i <;> interval_cases j <;> first | rfl | (exfalso; revert h; decide)

theorem trimChars_eq_self (l : List Char) (hne : l ≠ [])
    (h1 : isWs (l.headD 'x') = false) (h2 : isWs (l.getLastD 'x') = false) :
    trimChars l = l := by
  obtain ⟨x, xs, rfl⟩ := List.exists_cons_of_ne_nil hne
  simp only [List.headD_cons] at h1
  unfold trimChars
  rw [dropWhile_isWs_cons_false _ _ h1]
  have hrevne : (x :: xs).reverse ≠ [] := by simp
  obtain ⟨y, ys, hy⟩ := List.exists_cons_of_ne_nil hrevne
  have hyl : (x :: xs).getLast? = some y := by
    rw [← List.head?_reverse, hy]
    rfl
  have hyw : isWs y = false := by
    have : (x :: xs).getLastD 'x' = y := by
      simp [List.getLastD_eq_getLast?, hyl]
    rw [← this]
    exact h2
  rw [hy, dropWhile_isWs_cons_false _ _ hyw, ← hy, List.reverse_reverse]

theorem getLastD_append_of_ne_nil (l1 l2 : List Char) (h : l2 ≠ []) (d : Char) :
    (l1 ++ l2).getLastD d = l2.getLastD d := by
  rw [List.getLastD_eq_getLast?, List.getLastD_eq_getLast?,
    List.getLast?_append_of_ne_nil l1 h]

theorem getLastD_concat (l : List Char) (a d : Char) : (l ++ [a]).getLastD d = a := by
  rw [List.getLastD_eq_getLast?, List.getLast?_concat]
  rfl

/-- The parts loop of Node::from_str ignores the leading "Struct Node"
part. -/
theorem nodePartsFold_head_skip (rest : List (List Char)) (node : Node) :
    nodePartsFold ("Struct Node".toList :: rest) node = nodePartsFold rest node := rfl

/-- The parts loop takes the args from a " Node.args: " part. -/
theorem nodePartsFold_args (args : List Char) (rest : List (List Char)) (node : Node) :
    nodePartsFold ((" Node.args: ".toList ++ args) :: rest) node =
      nodePartsFold rest ⟨args, node.execution_status⟩ := by
  simp only [nodePartsFold, isPrefixOf_append_self, if_true, List.drop_left]

/-- The parts loop takes the status from a " Node.execution_status: "
part printed from a status. -/
theorem nodePartsFold_status (st : ExecutionStatus) (node : Node) :
    nodePartsFold [" Node.execution_status: ".toList ++ st.display] node =
      .ok ⟨node.args, st⟩ := by
  cases st <;> rfl

theorem status_display_no_comma (st : ExecutionStatus) : ',' ∉ st.display := by
  cases st <;> decide

theorem status_display_no_quote (st : ExecutionStatus) : '"' ∉ st.display := by
  cases st <;> decide

theorem status_display_getLast (st : ExecutionStatus) :
    isWs ((st.display).getLastD 'x') = false := by
  cases st <;> decide

/-- Node::from_str parses back the Display form of any node whose args
contain no comma (and no quote, though that is not needed at this level). -/
theorem nodeFromStr_display (nd : Node) (hargs : ',' ∉ nd.args) :
    Node.fromStr (Node.display nd) = .ok nd := by
  obtain ⟨args, st⟩ := nd
  simp only at hargs
  have hshape : Node.display ⟨args, st⟩ =
      "Struct Node".toList ++ ',' ::
        ((" Node.args: ".toList ++ args) ++ ',' ::
          (" Node.execution_status: ".toList ++ st.display)) := by
    simp [Node.display, List.append_assoc]
  have hsd : st.display ≠ [] := by
    cases st <;> decide
  have htrim : trimChars (Node.display ⟨args, st⟩) = Node.display ⟨args, st⟩ := by
    apply trimChars_eq_self
    · simp [Node.display]
    · have hh : (Node.display ⟨args, st⟩).headD 'x' = 'S' := rfl
      rw [hh]
      decide
    · have hl : (Node.display ⟨args, st⟩).getLastD 'x' = (st.display).getLastD 'x' := by
        simp only [Node.display, List.append_assoc]
        rw [getLastD_append_of_ne_nil _ _ (by simp [hsd]),
          getLastD_append_of_ne_nil _ _ (by simp [hsd]),
          getLastD_append_of_ne_nil _ _ hsd]
      rw [hl]
      exact status_display_getLast st
  have hsplit : splitOnChar ',' (Node.display ⟨args, st⟩) =
      ["Struct Node".toList, " Node.args: ".toList ++ args,
       " Node.execution_status: ".toList ++ st.display] := by
    rw [hshape, splitOnChar_append _ _ _ (by decide),
      splitOnChar_append _ _ _ ?hc, splitOnChar_of_not_mem _ _ ?hd]
    case hc =>
      intro hmem
      rcases List.mem_append.mp hmem with hmem | hmem
      · revert hmem
        decide
      · exact hargs hmem
    case hd =>
      intro hmem
      rcases List.mem_append.mp hmem with hmem | hmem
      · revert hmem
        decide
      · exact status_display_no_comma st hmem
  rw [Node.fromStr, htrim, hsplit, nodePartsFold_head_skip, nodePartsFold_args,
    nodePartsFold_status]

/-- Parsing one printed node line (index digit `d`) inserts exactly the
printed node under its index key and leaves the edges alone. -/
theorem parseLine_nodeLineChar (d : Char) (hd1 : isAsciiDigits [d] = true)
    (hd2 : isWs d = false) (hd3 : ¬ d = ' ') (hd4 : ¬ d = '"')
    (nd : Node) (hargs : ∀ ch ∈ nd.args, ¬ ch = ',' ∧ ¬ ch = '"')
    (nodes : List (List Char × Node)) (edges : List Edge) :
    parseLine ("    ".toList ++ [d] ++ " [ label = \"".toList ++ Node.display nd ++
        "\" ]".toList) nodes edges =
      .ok (mapInsert nodes [d] nd, edges) := by
  have hLshape : Node.display nd = "Struct Node, Node.args: ".toList ++
      (nd.args ++ (", Node.execution_status: ".toList ++ nd.execution_status.display)) := by
    simp [Node.display, List.append_assoc]
  have hLq : '"' ∉ Node.display nd := by
    rw [hLshape]
    intro hmem
    rcases List.mem_append.mp hmem with hmem | hmem
    · revert hmem
      decide
    rcases List.mem_append.mp hmem with hmem | hmem
    · exact (hargs _ hmem).2 rfl
    rcases List.mem_append.mp hmem with hmem | hmem
    · revert hmem
      decide
    · exact status_display_no_quote _ hmem
  have hconcat : "    ".toList ++ [d] ++ " [ label = \"".toList ++ Node.display nd ++
      "\" ]".toList =
      ("    ".toList ++ [d] ++ " [ label = \"".toList ++ Node.display nd ++
        "\" ".toList) ++ [']'] := by
    simp [List.append_assoc]
  have hlast : ("    ".toList ++ [d] ++ " [ label = \"".toList ++ Node.display nd ++
      "\" ]".toList).getLast? = some ']' := by
    rw [hconcat, List.getLast?_concat]
  have hstrip : stripSemicolon ("    ".toList ++ [d] ++ " [ label = \"".toList ++
      Node.display nd ++ "\" ]".toList) = "    ".toList ++ [d] ++ " [ label = \"".toList ++
      Node.display nd ++ "\" ]".toList := by
    unfold stripSemicolon
    rw [if_neg]
    rintro ⟨-, h2⟩
    rw [hlast] at h2
    simp at h2
  have hform : "    ".toList ++ [d] ++ " [ label = \"".toList ++ Node.display nd ++
      "\" ]".toList = ' ' :: ' ' :: ' ' :: ' ' ::
      (d :: (" [ label = \"".toList ++ (Node.display nd ++ "\" ]".toList))) := rfl
  have htrim : trimChars ("    ".toList ++ [d] ++ " [ label = \"".toList ++
      Node.display nd ++ "\" ]".toList) =
      d :: (" [ label = \"".toList ++ (Node.display nd ++ "\" ]".toList)) := by
    rw [hform, trimChars_space_cons, trimChars_space_cons, trimChars_space_cons,
      trimChars_space_cons]
    apply trimChars_eq_self
    · simp
    · simpa using hd2
    · have h1 : d :: (" [ label = \"".toList ++ (Node.display nd ++ "\" ]".toList)) =
          (d :: (" [ label = \"".toList ++ (Node.display nd ++ "\" ".toList))) ++ [']'] := by
        simp [List.append_assoc]
      rw [h1, getLastD_concat]
      decide
  have hchunks : d :: (" [ label = \"".toList ++ (Node.display nd ++ "\" ]".toList)) =
      [d] ++ ' ' :: ("[".toList ++ ' ' :: ("label".toList ++ ' ' :: ("=".toList ++ ' ' ::
        ("\"Struct".toList ++ ' ' :: ("Node,".toList ++ ' ' :: ("Node.args:".toList ++ ' ' ::
          (nd.args ++ (", Node.execution_status: ".toList ++
            (nd.execution_status.display ++ "\" ]".toList))))))))) := by
    rw [hLshape]
    simp [List.append_assoc]
  have hsplitsp : splitOnChar ' ' (d :: (" [ label = \"".toList ++
        (Node.display nd ++ "\" ]".toList))) =
      [d] :: "[".toList :: "label".toList :: "=".toList :: "\"Struct".toList ::
        "Node,".toList :: "Node.args:".toList ::
        splitOnChar ' ' (nd.args ++ (", Node.execution_status: ".toList ++
          (nd.execution_status.display ++ "\" ]".toList))) := by
    rw [hchunks, splitOnChar_append _ _ _ (by
        intro hmem
        simp at hmem
        exact hd3 hmem.symm),
      splitOnChar_append _ _ _ (by decide), splitOnChar_append _ _ _ (by decide),
      splitOnChar_append _ _ _ (by decide), splitOnChar_append _ _ _ (by decide),
      splitOnChar_append _ _ _ (by decide), splitOnChar_append _ _ _ (by decide)]
  have htokens : tokensOf ("    ".toList ++ [d] ++ " [ label = \"".toList ++
      Node.display nd ++ "\" ]".toList) =
      [d] :: "[".toList :: "label".toList :: "=".toList :: "\"Struct".toList ::
        "Node,".toList :: "Node.args:".toList ::
        (splitOnChar ' ' (nd.args ++ (", Node.execution_status: ".toList ++
          (nd.execution_status.display ++ "\" ]".toList)))).map trimChars := by
    rw [tokensOf, htrim, hsplitsp]
    simp only [List.map_cons]
    rw [trimChars_single d hd2]
    rw [show trimChars "[".toList = "[".toList from by decide,
      show trimChars "label".toList = "label".toList from by decide,
      show trimChars "=".toList = "=".toList from by decide,
      show trimChars "\"Struct".toList = "\"Struct".toList from by decide,
      show trimChars "Node,".toList = "Node,".toList from by decide,
      show trimChars "Node.args:".toList = "Node.args:".toList from by decide]
  have hcond : nodeLineCond ([d] :: "[".toList :: "label".toList :: "=".toList ::
      "\"Struct".toList :: "Node,".toList :: "Node.args:".toList ::
      (splitOnChar ' ' (nd.args ++ (", Node.execution_status: ".toList ++
        (nd.execution_status.display ++ "\" ]".toList)))).map trimChars) := by
    refine ⟨?_, hd1, rfl, rfl, rfl, rfl, rfl, rfl⟩
    simp only [List.length_cons]
    omega
  have hqshape : "    ".toList ++ [d] ++ " [ label = \"".toList ++ Node.display nd ++
      "\" ]".toList =
      (' ' :: ' ' :: ' ' :: ' ' :: (d :: " [ label = ".toList)) ++ '"' ::
        (Node.display nd ++ '"' :: " ]".toList) := by
    simp [List.append_assoc]
  have hquote : splitOnChar '"' ("    ".toList ++ [d] ++ " [ label = \"".toList ++
      Node.display nd ++ "\" ]".toList) =
      [' ' :: ' ' :: ' ' :: ' ' :: (d :: " [ label = ".toList), Node.display nd,
        " ]".toList] := by
    have hqpre : '"' ∉ ' ' :: ' ' :: ' ' :: ' ' :: (d :: " [ label = ".toList) := by
      intro hmem
      have heq : (' ' :: ' ' :: ' ' :: ' ' :: (d :: " [ label = ".toList)) =
          "    ".toList ++ ([d] ++ " [ label = ".toList) := rfl
      rw [heq] at hmem
      rcases List.mem_append.mp hmem with hmem | hmem
      · revert hmem
        decide
      rcases List.mem_append.mp hmem with hmem | hmem
      · simp at hmem
        exact hd4 hmem.symm
      · revert hmem
        decide
    rw [hqshape, splitOnChar_append _ _ _ hqpre,
      splitOnChar_append _ _ _ hLq, splitOnChar_of_not_mem _ _ (by decide)]
  have hnc : ',' ∉ nd.args := fun hmem => (hargs _ hmem).1 rfl
  rw [parseLine, hstrip, htokens]
  unfold parseLineWith
  rw [if_pos hcond, hquote]
  simp only [List.get?]
  rw [nodeFromStr_display nd hnc]
  rfl

/-- Parsing one printed edge line appends exactly the printed edge (as a
pair of index-digit keys) and leaves the node map alone. -/
theorem parseLine_edgeLineChars (dp dc : Char)
    (hp1 : isAsciiDigits [dp] = true) (hp2 : isWs dp = false) (hp3 : ¬ dp = ' ')
    (hc1 : isAsciiDigits [dc] = true) (hc2 : isWs dc = false) (hc3 : ¬ dc = ' ')
    (nodes : List (List Char × Node)) (edges : List Edge) :
    parseLine ("    ".toList ++ [dp] ++ " -> ".toList ++ [dc] ++ " [ ]".toList) nodes edges =
      .ok (nodes, edges ++ [Edge.new [dp] [dc]]) := by
  have hconcat : "    ".toList ++ [dp] ++ " -> ".toList ++ [dc] ++ " [ ]".toList =
      ("    ".toList ++ [dp] ++ " -> ".toList ++ [dc] ++ " [ ".toList) ++ [']'] := by
    simp [List.append_assoc]
  have hstrip : stripSemicolon ("    ".toList ++ [dp] ++ " -> ".toList ++ [dc] ++
      " [ ]".toList) = "    ".toList ++ [dp] ++ " -> ".toList ++ [dc] ++ " [ ]".toList := by
    unfold stripSemicolon
    rw [if_neg]
    rintro ⟨-, h2⟩
    rw [hconcat, List.getLast?_concat] at h2
    simp at h2
  have hform : "    ".toList ++ [dp] ++ " -> ".toList ++ [dc] ++ " [ ]".toList =
      ' ' :: ' ' :: ' ' :: ' ' ::
        (dp :: (" -> ".toList ++ ([dc] ++ " [ ]".toList))) := rfl
  have htrim : trimChars ("    ".toList ++ [dp] ++ " -> ".toList ++ [dc] ++
      " [ ]".toList) = dp :: (" -> ".toList ++ ([dc] ++ " [ ]".toList)) := by
    rw [hform, trimChars_space_cons, trimChars_space_cons, trimChars_space_cons,
      trimChars_space_cons]
    apply trimChars_eq_self
    · simp
    · simpa using hp2
    · have h1 : dp :: (" -> ".toList ++ ([dc] ++ " [ ]".toList)) =
          (dp :: (" -> ".toList ++ ([dc] ++ " [ ".toList))) ++ [']'] := by
        simp [List.append_assoc]
      rw [h1, getLastD_concat]
      decide
  have hchunks : dp :: (" -> ".toList ++ ([dc] ++ " [ ]".toList)) =
      [dp] ++ ' ' :: ("->".toList ++ ' ' :: ([dc] ++ ' ' :: ("[".toList ++ ' ' ::
        "]".toList))) := by
    simp [List.append_assoc]
  have hsplitsp : splitOnChar ' ' (dp :: (" -> ".toList ++ ([dc] ++ " [ ]".toList))) =
      [[dp], "->".toList, [dc], "[".toList, "]".toList] := by
    rw [hchunks,
      splitOnChar_append _ _ _ (by
        intro hmem
        simp at hmem
        exact hp3 hmem.symm),
      splitOnChar_append _ _ _ (by decide),
      splitOnChar_append _ _ _ (by
        intro hmem
        simp at hmem
        exact hc3 hmem.symm),
      splitOnChar_append _ _ _ (by decide),
      splitOnChar_of_not_mem _ _ (by decide)]
  have htokens : tokensOf ("    ".toList ++ [dp] ++ " -> ".toList ++ [dc] ++
      " [ ]".toList) = [[dp], "->".toList, [dc], "[".toList, "]".toList] := by
    rw [tokensOf, htrim, hsplitsp]
    simp only [List.map_cons, List.map_nil]
    rw [trimChars_single dp hp2, trimChars_single dc hc2]
    rw [show trimChars "->".toList = "->".toList from by decide,
      show trimChars "[".toList = "[".toList from by decide,
      show trimChars "]".toList = "]".toList from by decide]
  have hnocond : ¬ nodeLineCond [[dp], "->".toList, [dc], "[".toList, "]".toList] := by
    intro hcond
    have := hcond.1
    simp at this
  have hecond : edgeLineCond [[dp], "->".toList, [dc], "[".toList, "]".toList] := by
    exact ⟨by simp, hp1, rfl, hc1, rfl, rfl⟩
  rw [parseLine, hstrip, htokens]
  unfold parseLineWith
  rw [if_neg hnocond, if_pos hecond]
  rfl

/-- keyLtB is asymmetric. -/
theorem keyLtB_asymm : ∀ (a b : List Char), keyLtB a b = true → keyLtB b a = false := by
  intro a
  induction a with
  | nil =>
      intro b h
      cases b with
      | nil => cases h
      | cons y ys => rfl
  | cons x xs ih =>
      intro b h
      cases b with
      | nil => cases h
      | cons y ys =>
          simp only [keyLtB] at h ⊢
          by_cases h1 : x.toNat < y.toNat
          · rw [if_neg (by omega), if_neg (by omega)]
          · rw [if_neg h1] at h
            by_cases h2 : x.toNat = y.toNat
            · rw [if_pos h2] at h
              rw [if_neg (by omega), if_pos (by omega)]
              exact ih ys h
            · rw [if_neg h2] at h
              cases h

/-- keyLtB is irreflexive-compatible: strictly smaller keys differ. -/
theorem keyLtB_ne : ∀ (a b : List Char), keyLtB a b = true → a ≠ b := by
  intro a
  induction a with
  | nil =>
      intro b h
      cases b with
      | nil => cases h
      | cons y ys => simp
  | cons x xs ih =>
      intro b h
      cases b with
      | nil => cases h
      | cons y ys =>
          simp only [keyLtB] at h
          by_cases h1 : x.toNat < y.toNat
          · intro hh
            injection hh with hx _
            rw [hx] at h1
            omega
          · rw [if_neg h1] at h
            by_cases h2 : x.toNat = y.toNat
            · rw [if_pos h2] at h
              intro hh
              injection hh with _ hx
              exact ih ys h hx
            · rw [if_neg h2] at h
              cases h

/-- Inserting a key strictly greater than every key of the map appends. -/
theorem mapInsert_append_gt (m : List (List Char × Node)) (k : List Char) (v : Node)
    (h : ∀ kv ∈ m, keyLtB kv.1 k = true) : mapInsert m k v = m ++ [(k, v)] := by
  induction m with
  | nil => rfl
  | cons kv rest ih =>
      obtain ⟨k', v'⟩ := kv
      have hk' : keyLtB k' k = true := h (k', v') (List.mem_cons_self _ _)
      simp only [mapInsert]
      rw [if_neg (by simp [keyLtB_asymm k' k hk']),
        if_neg (fun hh => keyLtB_ne k' k hk' hh.symm),
        ih (fun kv hm => h kv (List.mem_cons_of_mem _ hm))]
      rfl

/-- The line loop distributes over list append. -/
theorem parseLines_append (ls1 ls2 : List (List Char)) (nodes : List (List Char × Node))
    (edges : List Edge) :
    parseLines (ls1 ++ ls2) nodes edges =
      (match parseLines ls1 nodes edges with
       | .error e => .error e
       | .ok (nodes', edges') => parseLines ls2 nodes' edges') := by
  induction ls1 generalizing nodes edges with
  | nil => rfl
  | cons l rest ih =>
      simp only [List.cons_append, parseLines]
      cases parseLine l nodes edges with
      | error e => rfl
      | ok r =>
          obtain ⟨nodes', edges'⟩ := r
          exact ih nodes' edges'

/-- Splitting the newline-terminated body lines plus a trailing chunk. -/
theorem splitOnChar_flat_lines (lines : List (List Char)) (tail : List Char)
    (hl : ∀ l ∈ lines, '\n' ∉ l) (ht : '\n' ∉ tail) :
    splitOnChar '\n' (lines.flatMap (fun l => l ++ ['\n']) ++ tail) = lines ++ [tail] := by
  induction lines with
  | nil => simpa using splitOnChar_of_not_mem '\n' tail ht
  | cons l ls ih =>
      have hshape : (l :: ls).flatMap (fun l => l ++ ['\n']) ++ tail =
          l ++ '\n' :: (ls.flatMap (fun l => l ++ ['\n']) ++ tail) := by
        rw [List.flatMap_cons]
        simp [List.append_assoc]
      rw [hshape, splitOnChar_append _ _ _ (hl l (List.mem_cons_self _ _)),
        ih (fun a ha => hl a (List.mem_cons_of_mem _ ha))]
      rfl

/-- Trimming a printed graph text: the leading character stays, the final
newline goes. -/
theorem trimChars_wrap (x y : Char) (mid : List Char)
    (hx : isWs x = false) (hy : isWs y = false) :
    trimChars (x :: ((mid ++ [y]) ++ ['\n'])) = x :: (mid ++ [y]) := by
  unfold trimChars
  rw [dropWhile_isWs_cons_false _ _ hx]
  have hrev : (x :: ((mid ++ [y]) ++ ['\n'])).reverse =
      '\n' :: (y :: (mid.reverse ++ [x])) := by
    simp
  rw [hrev, dropWhile_isWs_cons_true '\n' _ (by decide), dropWhile_isWs_cons_false _ _ hy]
  simp

theorem set_getD_self (l : List Node) (i : Nat) (h : i < l.length) :
    l.set i (l.getD i default) = l := by
  apply List.ext_getElem?
  intro j
  by_cases hj : j = i
  · subst hj
    rw [List.getElem?_set_eq_of_lt _ h, List.getD_eq_getElem _ _ h,
      List.getElem?_eq_getElem h]
  · rw [List.getElem?_set_ne (fun hh => hj hh.symm)]

/-- Setting child statuses is the identity when every child is already
NonExecutable. -/
theorem applyChildStatuses_eq_self (nds : List Node) (eds : List (Nat × Nat))
    (hvalid : ∀ e ∈ eds, e.2 < nds.length)
    (hchild : ∀ e ∈ eds, (nds.getD e.2 default).execution_status = .NonExecutable) :
    applyChildStatuses nds eds = nds := by
  induction eds with
  | nil => rfl
  | cons e rest ih =>
      have hnode : (⟨(nds.getD e.2 default).args, .NonExecutable⟩ : Node) =
          nds.getD e.2 default := by
        have hc := hchild e (List.mem_cons_self _ _)
        cases hg : nds.getD e.2 default
        rw [hg] at hc
        simp at hc
        simp [hc]
      rw [applyChildStatuses_cons, hnode,
        set_getD_self _ _ (hvalid e (List.mem_cons_self _ _))]
      exact ih (fun a ha => hvalid a (List.mem_cons_of_mem _ ha))
        (fun a ha => hchild a (List.mem_cons_of_mem _ ha))

/-- The nodes-map entry list after parsing the first `j` printed node
lines: index digits as keys, the printed nodes as values. -/
def mapUpTo (nds : List Node) (j : Nat) : List (List Char × Node) :=
  (List.range j).map (fun i => (natToDigits i, nds.getD i default))

/-- Parsing one printed node line with index below 10. -/
theorem parseLine_nodeLine (i : Nat) (hi : i < 10) (nd : Node)
    (hargs : ∀ ch ∈ nd.args, ¬ ch = ',' ∧ ¬ ch = '"')
    (nodes : List (List Char × Node)) (edges : List Edge) :
    parseLine (nodeLineStr i nd) nodes edges =
      .ok (mapInsert nodes (natToDigits i) nd, edges) := by
  rw [nodeLineStr, natToDigits_lt10 i hi]
  exact parseLine_nodeLineChar (Char.ofNat (48 + i))
    (by interval_cases i <;> decide) (by interval_cases i <;> decide)
    (by interval_cases i <;> decide) (by interval_cases i <;> decide)
    nd hargs nodes edges

/-- Parsing one printed edge line with endpoints below 10. -/
theorem parseLine_edgeLine (e : Nat × Nat) (hp : e.1 < 10) (hc : e.2 < 10)
    (nodes : List (List Char × Node)) (edges : List Edge) :
    parseLine (edgeLineStr e) nodes edges =
      .ok (nodes, edges ++ [Edge.new (natToDigits e.1) (natToDigits e.2)]) := by
  rw [edgeLineStr, natToDigits_lt10 e.1 hp, natToDigits_lt10 e.2 hc]
  exact parseLine_edgeLineChars (Char.ofNat (48 + e.1)) (Char.ofNat (48 + e.2))
    (by interval_cases h : e.1 <;> decide) (by interval_cases h : e.1 <;> decide)
    (by interval_cases h : e.1 <;> decide) (by interval_cases h : e.2 <;> decide)
    (by interval_cases h : e.2 <;> decide) (by interval_cases h : e.2 <;> decide)
    nodes edges

/-- Payload characters that survive the DOT print/parse pipeline: no comma
(Node::from_str splits on commas), no quote (the label is delimited by
quotes), no newline (lines are split on newlines) and no backslash (petgraph
escapes backslashes when printing). -/
def safeArgChar (ch : Char) : Prop :=
  ¬ ch = ',' ∧ ¬ ch = '"' ∧ ¬ ch = '\n' ∧ ¬ ch = '\\'

instance (ch : Char) : Decidable (safeArgChar ch) := by
  unfold safeArgChar
  infer_instance

theorem status_display_no_newline (st : ExecutionStatus) : '\n' ∉ st.display := by
  cases st <;> decide

theorem nodeLineStr_no_newline (i : Nat) (hi : i < 10) (nd : Node)
    (hargs : ∀ ch ∈ nd.args, safeArgChar ch) : '\n' ∉ nodeLineStr i nd := by
  intro hmem
  simp only [nodeLineStr, List.mem_append] at hmem
  rcases hmem with ((((hmem | hmem) | hmem) | hmem) | hmem)
  · revert hmem
    decide
  · exact natToDigits_not_newline i hi hmem
  · revert hmem
    decide
  · simp only [Node.display, List.mem_append] at hmem
    rcases hmem with ((hmem | hmem) | hmem) | hmem
    · revert hmem
      decide
    · exact (hargs _ hmem).2.2.1 rfl
    · revert hmem
      decide
    · exact status_display_no_newline _ hmem
  · revert hmem
    decide

theorem edgeLineStr_no_newline (e : Nat × Nat) (hp : e.1 < 10) (hc : e.2 < 10) :
    '\n' ∉ edgeLineStr e := by
  intro hmem
  simp only [edgeLineStr, List.mem_append] at hmem
  rcases hmem with (((hmem | hmem) | hmem) | hmem) | hmem
  · revert hmem
    decide
  · exact natToDigits_not_newline e.1 hp hmem
  · revert hmem
    decide
  · exact natToDigits_not_newline e.2 hc hmem
  · revert hmem
    decide

theorem mapUpTo_zero (nds : List Node) : mapUpTo nds 0 = [] := rfl

theorem mapUpTo_succ (nds : List Node) (k : Nat) :
    mapUpTo nds (k + 1) = mapUpTo nds k ++ [(natToDigits k, nds.getD k default)] := by
  simp [mapUpTo, List.range_succ]

/-- Processing the printed node lines from index `k` on extends the map from
the first `k` entries to all of them. -/
theorem parseLines_nodeLines (nds : List Node) (hN : nds.length ≤ 10)
    (hsafe : ∀ nd ∈ nds, ∀ ch ∈ nd.args, safeArgChar ch) :
    ∀ (m k : Nat), k + m = nds.length → ∀ (edges : List Edge),
      parseLines ((List.range' k m).map (fun i => nodeLineStr i (nds.getD i default)))
        (mapUpTo nds k) edges = .ok (mapUpTo nds nds.length, edges) := by
  intro m
  induction m with
  | zero =>
      intro k hk edges
      rw [Nat.add_zero] at hk
      subst hk
      rfl
  | succ m ih =>
      intro k hk edges
      have hklen : k < nds.length := by omega
      have hk10 : k < 10 := by omega
      have hargk : ∀ ch ∈ (nds.getD k default).args, ¬ ch = ',' ∧ ¬ ch = '"' := by
        intro ch hch
        have hmem : nds.getD k default ∈ nds := by
          rw [List.getD_eq_getElem _ _ hklen]
          exact List.getElem_mem hklen
        exact ⟨(hsafe _ hmem ch hch).1, (hsafe _ hmem ch hch).2.1⟩
      rw [List.range'_succ, List.map_cons]
      simp only [parseLines, parseLine_nodeLine k hk10 (nds.getD k default) hargk]
      have hins : mapInsert (mapUpTo nds k) (natToDigits k) (nds.getD k default) =
          mapUpTo nds (k + 1) := by
        rw [mapInsert_append_gt, ← mapUpTo_succ]
        intro kv hkv
        simp only [mapUpTo, List.mem_map, List.mem_range] at hkv
        obtain ⟨j, hj, rfl⟩ := hkv
        exact natToDigits_keyLtB j k hk10 hj
      rw [hins]
      exact ih (k + 1) (by omega) edges

/-- Processing the printed edge lines appends the printed edges in order. -/
theorem parseLines_edgeLines (nodes : List (List Char × Node)) :
    ∀ (eds : List (Nat × Nat)), (∀ e ∈ eds, e.1 < 10 ∧ e.2 < 10) →
    ∀ (edges0 : List Edge),
      parseLines (eds.map edgeLineStr) nodes edges0 =
        .ok (nodes, edges0 ++ eds.map (fun e => Edge.new (natToDigits e.1) (natToDigits e.2))) := by
  intro eds
  induction eds with
  | nil =>
      intro h10 edges0
      simp [parseLines]
  | cons e rest ih =>
      intro h10 edges0
      rw [List.map_cons]
      simp only [parseLines, parseLine_edgeLine e (h10 e (List.mem_cons_self _ _)).1
        (h10 e (List.mem_cons_self _ _)).2]
      rw [ih (fun a ha => h10 a (List.mem_cons_of_mem _ ha))
        (edges0 ++ [Edge.new (natToDigits e.1) (natToDigits e.2)])]
      simp [List.append_assoc]

/-- Looking up an index key in the fully parsed map finds that index. -/
theorem keyIndexOf_mapUpTo (nds : List Node) (p : Nat) (hp : p < nds.length)
    (hN : nds.length ≤ 10) :
    keyIndexOf (mapUpTo nds nds.length) (natToDigits p) = some p := by
  have hgen : ∀ (q N : Nat), q < N → N ≤ 10 →
      keyIndexOf ((List.range N).map (fun i => (natToDigits i, nds.getD i default)))
        (natToDigits q) = some q := by
    intro q N hq hN'
    interval_cases N <;> interval_cases q <;> rfl
  exact hgen p nds.length hp hN

theorem mapUpTo_length (nds : List Node) (j : Nat) : (mapUpTo nds j).length = j := by
  simp [mapUpTo]

theorem nodeValuesOf_mapUpTo (nds : List Node) :
    nodeValuesOf (mapUpTo nds nds.length) = nds := by
  simp only [nodeValuesOf, mapUpTo, List.map_map]
  apply List.ext_getElem
  · simp
  · intro i h1 h2
    simp [List.getElem?_eq_getElem h2]

theorem keptEdges_mapUpTo (nds : List Node) (hN : nds.length ≤ 10) :
    ∀ (eds : List (Nat × Nat)), (∀ e ∈ eds, e.1 < nds.length ∧ e.2 < nds.length) →
      keptEdges (mapUpTo nds nds.length)
        (eds.map (fun e => Edge.new (natToDigits e.1) (natToDigits e.2))) = eds := by
  intro eds
  induction eds with
  | nil => intro h; rfl
  | cons e rest ih =>
      intro h
      rw [List.map_cons]
      simp only [keptEdges, List.filterMap_cons] at ih ⊢
      rw [show (Edge.new (natToDigits e.1) (natToDigits e.2)).parent = natToDigits e.1
          from rfl,
        show (Edge.new (natToDigits e.1) (natToDigits e.2)).child = natToDigits e.2
          from rfl,
        keyIndexOf_mapUpTo nds e.1 (h e (List.mem_cons_self _ _)).1 hN,
        keyIndexOf_mapUpTo nds e.2 (h e (List.mem_cons_self _ _)).2 hN]
      rw [ih (fun a ha => h a (List.mem_cons_of_mem _ ha))]

/-- FromStr inverts Display on any graph shaped like the output of new:
at most ten nodes, safe payload characters, edges with valid endpoints,
children NonExecutable, and an acyclic edge set. -/
theorem fromStr_displayGraph (nds : List Node) (eds : List (Nat × Nat))
    (hlen : nds.length ≤ 10)
    (hsafe : ∀ nd ∈ nds, ∀ ch ∈ nd.args, safeArgChar ch)
    (hvalid : ∀ e ∈ eds, e.1 < nds.length ∧ e.2 < nds.length)
    (hchild : ∀ e ∈ eds, (nds.getD e.2 default).execution_status = .NonExecutable)
    (hacyc : acyclicB nds.length eds = true) :
    DirectedAcyclicGraph.fromStr (displayGraph ⟨nds, eds⟩) = .ok ⟨nds, eds⟩ := by
  have hdg : displayGraph ⟨nds, eds⟩ = 'd' ::
      ((("igraph ".toList ++ [lbrace] ++ '\n' ::
        (graphLines ⟨nds, eds⟩).flatMap (fun l => l ++ ['\n'])) ++ [rbrace]) ++ ['\n']) := by
    simp [displayGraph, List.append_assoc]
  have htrim : trimChars (displayGraph ⟨nds, eds⟩) =
      'd' :: (("igraph ".toList ++ [lbrace] ++ '\n' ::
        (graphLines ⟨nds, eds⟩).flatMap (fun l => l ++ ['\n'])) ++ [rbrace]) := by
    rw [hdg]
    exact trimChars_wrap 'd' rbrace _ (by decide) (by decide)
  have hsh : 'd' :: (("igraph ".toList ++ [lbrace] ++ '\n' ::
      (graphLines ⟨nds, eds⟩).flatMap (fun l => l ++ ['\n'])) ++ [rbrace]) =
      ("digraph ".toList ++ [lbrace]) ++ '\n' ::
        ((graphLines ⟨nds, eds⟩).flatMap (fun l => l ++ ['\n']) ++ [rbrace]) := by
    simp [List.append_assoc]
  have hpre : "digraph".toList.isPrefixOf (trimChars (displayGraph ⟨nds, eds⟩)) = true := by
    rw [htrim, hsh]
    have h2 : ("digraph ".toList ++ [lbrace]) ++ '\n' ::
        ((graphLines ⟨nds, eds⟩).flatMap (fun l => l ++ ['\n']) ++ [rbrace]) =
        "digraph".toList ++ (' ' :: ([lbrace] ++ '\n' ::
          ((graphLines ⟨nds, eds⟩).flatMap (fun l => l ++ ['\n']) ++ [rbrace]))) := by
      simp
    rw [h2]
    exact isPrefixOf_append_self _ _
  have hnl : ∀ l ∈ graphLines ⟨nds, eds⟩, '\n' ∉ l := by
    intro l hl
    simp only [graphLines, List.mem_append, List.mem_map, List.mem_range] at hl
    rcases hl with ⟨i, hi, rfl⟩ | ⟨e, he, rfl⟩
    · have hmem : nds.getD i default ∈ nds := by
        rw [List.getD_eq_getElem _ _ hi]
        exact List.getElem_mem hi
      exact nodeLineStr_no_newline i (by omega) _ (hsafe _ hmem)
    · exact edgeLineStr_no_newline e (by have := (hvalid e he).1; omega)
        (by have := (hvalid e he).2; omega)
  have hlines : splitOnChar '\n' (trimChars (displayGraph ⟨nds, eds⟩)) =
      ("digraph ".toList ++ [lbrace]) :: (graphLines ⟨nds, eds⟩ ++ [[rbrace]]) := by
    rw [htrim, hsh, splitOnChar_append _ _ _ (by decide),
      splitOnChar_flat_lines _ _ hnl (by decide)]
  have hdline : parseLine ("digraph ".toList ++ [lbrace]) [] [] = .ok ([], []) := rfl
  have hbline : ∀ nodes edges, parseLine [rbrace] nodes edges = .ok (nodes, edges) :=
    fun nodes edges => rfl
  have h10 : ∀ e ∈ eds, e.1 < 10 ∧ e.2 < 10 := by
    intro e he
    have := hvalid e he
    omega
  have hgl : graphLines ⟨nds, eds⟩ ++ [[rbrace]] =
      (List.range nds.length).map (fun i => nodeLineStr i (nds.getD i default)) ++
        (eds.map edgeLineStr ++ [[rbrace]]) := by
    simp [graphLines, List.append_assoc]
  have hnodes0 : parseLines ((List.range' 0 nds.length).map
      (fun i => nodeLineStr i (nds.getD i default))) [] [] =
      .ok (mapUpTo nds nds.length, []) :=
    parseLines_nodeLines nds hlen hsafe nds.length 0 (by omega) []
  have hedges0 : parseLines (eds.map edgeLineStr) (mapUpTo nds nds.length) [] =
      .ok (mapUpTo nds nds.length,
        eds.map (fun e => Edge.new (natToDigits e.1) (natToDigits e.2))) := by
    have := parseLines_edgeLines (mapUpTo nds nds.length) eds h10 []
    simpa using this
  unfold DirectedAcyclicGraph.fromStr
  rw [if_pos hpre, hlines]
  simp only [parseLines, hdline, hgl, parseLines_append, List.range_eq_range',
    hnodes0, hedges0, hbline]
  simp only [DirectedAcyclicGraph.new]
  rw [keptEdges_mapUpTo nds hlen eds hvalid, nodeValuesOf_mapUpTo, mapUpTo_length]
  rw [if_pos hacyc, applyChildStatuses_eq_self nds eds (fun e he => (hvalid e he).2) hchild]

/-- PartialEq for DirectedAcyclicGraph (src/graph_structure/graph.rs):
equal node and edge counts, node weights equal at every index, edge
endpoints equal at every edge index. -/
def graphPartialEq (a b : Graph) : Bool :=
  a.nodes.length == b.nodes.length && a.edges.length == b.edges.length &&
    (List.range a.nodes.length).all (fun i => a.nodes.getD i default == b.nodes.getD i default) &&
    (List.range a.edges.length).all (fun i => a.edges.getD i (0, 0) == b.edges.getD i (0, 0))

theorem graphPartialEq_refl (g : Graph) : graphPartialEq g g = true := by
  simp [graphPartialEq, List.all_eq_true]

/-- C7 counterexample: a payload containing a comma does not survive the
round trip, because Node::from_str splits the label on commas; the printed
form parses back with the payload truncated at the comma, and the two
graphs compare unequal under PartialEq. -/
theorem C7_counterexample_comma_payload :
    DirectedAcyclicGraph.new [(['0'], Node.new ['x', ',', ' ', 'y'])] [] =
      .ok ⟨[⟨['x', ',', ' ', 'y'], .Executable⟩], []⟩ ∧
    DirectedAcyclicGraph.fromStr
        (displayGraph ⟨[⟨['x', ',', ' ', 'y'], .Executable⟩], []⟩) =
      .ok ⟨[⟨['x'], .Executable⟩], []⟩ ∧
    graphPartialEq ⟨[⟨['x', ',', ' ', 'y'], .Executable⟩], []⟩
      ⟨[⟨['x'], .Executable⟩], []⟩ = false := by
  refine ⟨rfl, ?_, by decide⟩
  rfl

/-- C7 amended: for every graph successfully constructed by new with at
most ten nodes and payloads free of comma, quote, newline and backslash,
parsing the printed DOT form yields the same graph, and the source's
PartialEq confirms the equality. -/
theorem C7_print_parse_roundtrip (nodesIn : List (List Char × Node)) (edgesIn : List Edge)
    (g : Graph) (hok : DirectedAcyclicGraph.new nodesIn edgesIn = .ok g)
    (hsize : g.nodes.length ≤ 10)
    (hsafe : ∀ nd ∈ g.nodes, ∀ ch ∈ nd.args, safeArgChar ch) :
    DirectedAcyclicGraph.fromStr (displayGraph g) = .ok g ∧
      graphPartialEq g g = true := by
  obtain ⟨hacyc, hg⟩ := DirectedAcyclicGraph.new_ok nodesIn edgesIn g hok
  have hnlen : g.nodes.length = nodesIn.length := by
    rw [hg]
    simp [applyChildStatuses_length, nodeValuesOf]
  have hedges : g.edges = keptEdges nodesIn edgesIn := by
    rw [hg]
  have hvalid : ∀ e ∈ g.edges, e.1 < g.nodes.length ∧ e.2 < g.nodes.length := by
    intro e he
    rw [hedges] at he
    have := keptEdges_valid nodesIn edgesIn e he
    omega
  have hchild : ∀ e ∈ g.edges, (g.nodes.getD e.2 default).execution_status =
      .NonExecutable := by
    intro e he
    rw [hedges] at he
    have hvalid2 : ∀ a ∈ keptEdges nodesIn edgesIn,
        a.2 < (nodeValuesOf nodesIn).length := by
      intro a ha
      have := (keptEdges_valid nodesIn edgesIn a ha).2
      simp only [nodeValuesOf, List.length_map]
      omega
    have hstat := applyChildStatuses_status (nodeValuesOf nodesIn)
      (keptEdges nodesIn edgesIn) hvalid2 e.2
    have hany : (keptEdges nodesIn edgesIn).any (fun a => a.2 == e.2) = true := by
      rw [List.any_eq_true]
      exact ⟨e, he, by simp⟩
    rw [hg]
    simp only
    rw [hstat, if_pos hany]
  have hacyc2 : acyclicB g.nodes.length g.edges = true := by
    rw [hnlen, hedges]
    exact hacyc
  have hmain := fromStr_displayGraph g.nodes g.edges hsize hsafe hvalid hchild hacyc2
  constructor
  · have hgeta : (⟨g.nodes, g.edges⟩ : Graph) = g := rfl
    rw [hgeta] at hmain
    exact hmain
  · exact graphPartialEq_refl g

/-- Closed witness for the amended C7 on a freshly constructed two-node
chain. -/
theorem C7_print_parse_roundtrip_witness :
    DirectedAcyclicGraph.fromStr (displayGraph
      ⟨[Node.new ['a'], ⟨['b'], .NonExecutable⟩], [(0, 1)]⟩) =
    .ok ⟨[Node.new ['a'], ⟨['b'], .NonExecutable⟩], [(0, 1)]⟩ := by
  have h := C7_print_parse_roundtrip
    [(['0'], Node.new ['a']), (['1'], Node.new ['b'])]
    [Edge.new ['0'] ['1']]
    ⟨[Node.new ['a'], ⟨['b'], .NonExecutable⟩], [(0, 1)]⟩
    rfl (by decide) (by decide)
  exact h.1

/-! ## C3: execute_graph terminates for a single worker -/

/-- Node::execute (src/graph_structure/node.rs): errors unless the status is
Executing; the Executing arm prints the args, a side effect not modelled. -/
def Node.execute (nd : Node) : Except (List Char) Unit :=
  match nd.execution_status with
  | .Executed => .error ("Trying to execute node which has already been executed.".toList)
  | .Executable =>
      .error ("Trying to execute node which is not yet set for execution.".toList)
  | .NonExecutable => .error ("Trying to execute node which is not executable.".toList)
  | .Executing => .ok ()

/-- get_executable_node_index (src/graph_structure/graph.rs): the first node
index whose status is Executable. -/
def Graph.get_executable_node_index (g : Graph) : Option Nat :=
  g.nodes.findIdx? (fun nd => nd.execution_status == .Executable)

/-- is_graph_executed (src/graph_structure/graph.rs): the list of
non-Executed nodes is empty. -/
def Graph.is_graph_executed (g : Graph) : Bool :=
  (g.nodes.filter (fun nd => !(nd.execution_status == .Executed))).isEmpty

/-- The all_executed / all_executed_or_executing fold over a child's parents
in execute_graph (src/shared_memory_graph/execute_graph.rs), including the
early break when a parent is neither Executed nor Executing. -/
def parentFlags (g : Graph) : List Nat → Bool × Bool
  | [] => (true, true)
  | p :: ps =>
    if g.statusOf p = .Executing then (false, (parentFlags g ps).2)
    else if ¬ (g.statusOf p = .Executed) then (false, false)
    else parentFlags g ps

/-- The children sweep of execute_graph: pop a child, re-read the shared
graph, classify its parents, promote it when all parents are Executed
(absorbing a failed CAS into the local copy), requeue it when a parent is
still Executing.  The fuel argument models the unbounded while loop; the
source has no fuel and simply loops. -/
def sweepChildren : Nat → List Nat → Graph → Graph →
    Except (List Char) (Graph × Graph)
  | 0, _, _, _ => .error ("sweep fuel exhausted".toList)
  | _ + 1, [], g_self, shm => .ok (g_self, shm)
  | fuel + 1, child :: rest, _, shm =>
    let g1 := shm
    let flags := parentFlags g1 (g1.parentsOf child)
    if flags.1 then
      match shm_compare_node_execution_status_and_update shm child .Executable with
      | .error e => .error e
      | .ok (some new_dag, shm') =>
          sweepChildren fuel rest (g1.setStatus child (new_dag.statusOf child)) shm'
      | .ok (none, shm') =>
          sweepChildren fuel rest (g1.setStatus child .Executable) shm'
    else if flags.2 then
      sweepChildren fuel (rest ++ [child]) g1 shm
    else
      sweepChildren fuel rest g1 shm

/-- The claim loop of execute_graph: find an executable node and claim it
with a CAS to Executing; on a lost race adopt the observed graph; when no
node is executable either finish (graph executed) or sleep and re-read.
The fuel models the unbounded loop. -/
def claimLoop : Nat → Graph → Graph → Except (List Char) (Option (Nat × Graph × Graph))
  | 0, _, _ => .error ("claim fuel exhausted".toList)
  | fuel + 1, g_self, shm =>
    match g_self.get_executable_node_index with
    | some i =>
      match shm_compare_node_execution_status_and_update shm i .Executing with
      | .error e => .error e
      | .ok (some new_dag, shm') => claimLoop fuel new_dag shm'
      | .ok (none, shm') => .ok (some (i, g_self, shm'))
    | none =>
      if g_self.is_graph_executed then .ok none
      else claimLoop fuel shm shm

/-- The scheduler loop of execute_graph after the mapping exists, for a
single worker: the shared mapping state is threaded explicitly and no other
process mutates it.  Each outer iteration claims a node, runs it, commits
Executed and sweeps its children.  Fuel arguments model the unbounded
loops. -/
def executeGraphRun : Nat → Nat → Nat → Graph → Except (List Char) Graph
  | 0, _, _, _ => .error ("outer fuel exhausted".toList)
  | outer + 1, innerFuel, sweepFuel, shm =>
    let g_self := shm
    match claimLoop innerFuel g_self shm with
    | .error e => .error e
    | .ok none => .ok shm
    | .ok (some (i, g_self, shm)) =>
      let g_self := g_self.setStatus i .Executing
      match (g_self.nodes.getD i default).execute with
      | .error e => .error e
      | .ok _ =>
        let g_self := g_self.setStatus i .Executed
        match shm_compare_node_execution_status_and_update shm i .Executed with
        | .error e => .error e
        | .ok (some _, _) =>
            .error ("Execution status changed by another process.".toList)
        | .ok (none, shm) =>
          match sweepChildren sweepFuel (g_self.childrenOf i) g_self shm with
          | .error e => .error e
          | .ok (_, shm) => executeGraphRun outer innerFuel sweepFuel shm

/-- No node is currently Executing. -/
def NoExecuting (g : Graph) : Prop :=
  ∀ n < g.nodes.length, g.statusOf n ≠ .Executing

/-- Every NonExecutable node still has a parent that is not Executed. -/
def BlockedHaveUnfinishedParent (g : Graph) : Prop :=
  ∀ n < g.nodes.length, g.statusOf n = .NonExecutable →
    ∃ p ∈ g.parentsOf n, g.statusOf p ≠ .Executed

/-- Every edge joins valid node indices. -/
def EdgesValid (g : Graph) : Prop :=
  ∀ e ∈ g.edges, e.1 < g.nodes.length ∧ e.2 < g.nodes.length

/-- All parents of a node are Executed. -/
def AllParentsExecuted (g : Graph) (n : Nat) : Prop :=
  ∀ p ∈ g.parentsOf n, g.statusOf p = .Executed

instance (g : Graph) (n : Nat) : Decidable (AllParentsExecuted g n) := by
  unfold AllParentsExecuted
  infer_instance

/-- The number of nodes not yet Executed. -/
def countUnfinished (g : Graph) : Nat :=
  ((Finset.range g.nodes.length).filter (fun n => ¬ g.statusOf n = .Executed)).card

theorem mem_parentsOf (g : Graph) (n p : Nat) :
    p ∈ g.parentsOf n ↔ (p, n) ∈ g.edges := by
  simp only [Graph.parentsOf, List.mem_map, List.mem_filter]
  constructor
  · rintro ⟨e, ⟨he, hn⟩, rfl⟩
    simp only [beq_iff_eq] at hn
    obtain ⟨a, b⟩ := e
    simp only at hn
    subst hn
    exact he
  · intro h
    exact ⟨(p, n), ⟨h, by simp⟩, rfl⟩

theorem findIdx?_found_aux {α : Type} [Inhabited α] {p : α → Bool} :
    ∀ (l : List α) (s i : Nat), l.findIdx? p s = some i →
      s ≤ i ∧ i - s < l.length ∧ p (l.getD (i - s) default) = true := by
  intro l
  induction l with
  | nil => intro s i h; cases h
  | cons x xs ih =>
      intro s i h
      rw [List.findIdx?_cons] at h
      by_cases hx : p x
      · rw [if_pos hx] at h
        cases h
        refine ⟨Nat.le_refl _, by simp, ?_⟩
        simp [hx]
      · rw [if_neg hx] at h
        obtain ⟨h1, h2, h3⟩ := ih (s + 1) i h
        refine ⟨by omega, by simp only [List.length_cons]; omega, ?_⟩
        have hk : i - s = (i - (s + 1)) + 1 := by omega
        rw [hk]
        simpa using h3

theorem findIdx?_found {α : Type} [Inhabited α] {p : α → Bool} {l : List α} {i : Nat}
    (h : l.findIdx? p = some i) : i < l.length ∧ p (l.getD i default) = true := by
  obtain ⟨h1, h2, h3⟩ := findIdx?_found_aux l 0 i h
  rw [Nat.sub_zero] at h2 h3
  exact ⟨h2, h3⟩

theorem get_executable_some (g : Graph) (i : Nat)
    (h : g.get_executable_node_index = some i) :
    i < g.nodes.length ∧ g.statusOf i = .Executable := by
  obtain ⟨h1, h2⟩ := findIdx?_found h
  simp only [beq_iff_eq] at h2
  exact ⟨h1, h2⟩

theorem get_executable_none (g : Graph) (h : g.get_executable_node_index = none) :
    ∀ n < g.nodes.length, g.statusOf n ≠ .Executable := by
  rw [Graph.get_executable_node_index, List.findIdx?_eq_none_iff] at h
  intro n hn hexec
  have hmem : g.nodes.getD n default ∈ g.nodes := by
    rw [List.getD_eq_getElem _ _ hn]
    exact List.getElem_mem hn
  have := h _ hmem
  rw [beq_eq_false_iff_ne] at this
  exact this hexec

theorem is_graph_executed_iff (g : Graph) :
    g.is_graph_executed = true ↔ ∀ n < g.nodes.length, g.statusOf n = .Executed := by
  rw [Graph.is_graph_executed, List.isEmpty_iff, List.filter_eq_nil_iff]
  constructor
  · intro h n hn
    have hmem : g.nodes.getD n default ∈ g.nodes := by
      rw [List.getD_eq_getElem _ _ hn]
      exact List.getElem_mem hn
    have := h _ hmem
    simp at this
    simp only [Graph.statusOf, List.getD_eq_getElem?_getD]
    exact this
  · intro h nd hmem
    obtain ⟨j, hj, rfl⟩ := List.mem_iff_getElem.mp hmem
    have := h j hj
    simp only [Graph.statusOf, List.getD_eq_getElem _ _ hj] at this
    simp [this]

theorem parentFlags_no_executing (g : Graph) :
    ∀ (ps : List Nat), (∀ p ∈ ps, g.statusOf p ≠ .Executing) →
      parentFlags g ps = (ps.all (fun p => g.statusOf p == .Executed),
        ps.all (fun p => g.statusOf p == .Executed)) := by
  intro ps
  induction ps with
  | nil => intro h; rfl
  | cons p rest ih =>
      intro h
      have hp : g.statusOf p ≠ .Executing := h p (List.mem_cons_self _ _)
      have hrest := ih (fun a ha => h a (List.mem_cons_of_mem _ ha))
      simp only [parentFlags, if_neg hp]
      by_cases hpe : g.statusOf p = .Executed
      · rw [if_neg (by simp [hpe]), hrest]
        simp [hpe]
      · rw [if_pos hpe]
        simp [hpe]

/-- A successful conditional update, stated in the success direction. -/
theorem shm_compare_commits (shm : Graph) (n : Nat) (s old : ExecutionStatus)
    (hold : requiredOldStatus s = some old) (hst : shm.statusOf n = old) :
    shm_compare_node_execution_status_and_update shm n s =
      .ok (none, shm.setStatus n s) := by
  simp only [shm_compare_node_execution_status_and_update, hold]
  simp only [Graph.statusOf] at hst
  rw [if_pos hst]

/-- Progress: with no Executing node, every blocked node behind an
unfinished parent, and an acyclic (ranked) edge set, an unfinished graph has
an Executable node. -/
theorem exists_executable (g : Graph) (rank : Nat → Nat)
    (hrank : ∀ e ∈ g.edges, rank e.1 < rank e.2) (hedges : EdgesValid g)
    (hnoexec : NoExecuting g) (hblocked : BlockedHaveUnfinishedParent g)
    (hnotdone : g.is_graph_executed = false) :
    ∃ i, i < g.nodes.length ∧ g.statusOf i = .Executable := by
  have hstart : ∃ n, n < g.nodes.length ∧ g.statusOf n ≠ .Executed := by
    by_contra hc
    push_neg at hc
    have : g.is_graph_executed = true := (is_graph_executed_iff g).mpr hc
    rw [hnotdone] at this
    cases this
  obtain ⟨n0, hn0, hne0⟩ := hstart
  have H : ∀ (r : Nat), ∀ n, rank n = r → n < g.nodes.length → g.statusOf n ≠ .Executed →
      ∃ i, i < g.nodes.length ∧ g.statusOf i = .Executable := by
    intro r
    induction r using Nat.strong_induction_on with
    | _ r IH =>
        intro n hr hn hne
        cases hst : g.statusOf n with
        | Executed => exact absurd hst hne
        | Executing => exact absurd hst (hnoexec n hn)
        | Executable => exact ⟨n, hn, hst⟩
        | NonExecutable =>
            obtain ⟨p, hp, hpne⟩ := hblocked n hn hst
            have hedge : (p, n) ∈ g.edges := (mem_parentsOf g n p).mp hp
            have hplen : p < g.nodes.length := (hedges _ hedge).1
            have hprank : rank p < r := by
              rw [← hr]
              exact hrank _ hedge
            exact IH (rank p) hprank p rfl hplen hpne
  exact H (rank n0) n0 rfl hn0 hne0

theorem mem_childrenOf (g : Graph) (i c : Nat) :
    c ∈ g.childrenOf i ↔ (i, c) ∈ g.edges := by
  simp only [Graph.childrenOf, List.mem_map, List.mem_filter]
  constructor
  · rintro ⟨e, ⟨he, hi⟩, rfl⟩
    simp only [beq_iff_eq] at hi
    obtain ⟨a, b⟩ := e
    simp only at hi
    subst hi
    exact he
  · intro h
    exact ⟨(i, c), ⟨h, by simp⟩, rfl⟩

theorem parentsOf_congr {g1 g2 : Graph} (h : g1.edges = g2.edges) (n : Nat) :
    g1.parentsOf n = g2.parentsOf n := by
  simp [Graph.parentsOf, h]

theorem childrenOf_congr {g1 g2 : Graph} (h : g1.edges = g2.edges) (i : Nat) :
    g1.childrenOf i = g2.childrenOf i := by
  simp [Graph.childrenOf, h]

theorem childrenOf_length_le (g : Graph) (i : Nat) :
    (g.childrenOf i).length ≤ g.edges.length := by
  simp only [Graph.childrenOf, List.length_map]
  exact List.length_filter_le _ _

theorem statusOf_lt_length (g : Graph) (n : Nat) (h : g.statusOf n ≠ .Executable) :
    n < g.nodes.length := by
  by_contra hc
  push_neg at hc
  apply h
  simp [Graph.statusOf, List.getD_eq_getElem?_getD, List.getElem?_eq_none hc]
  rfl

theorem execute_ok (nd : Node) (h : nd.execution_status = .Executing) :
    nd.execute = .ok () := by
  simp only [Node.execute, h]

theorem promote_preserves_executed (g : Graph) (c : Nat)
    (hc : g.statusOf c = .NonExecutable) (n : Nat) :
    ((g.setStatus c .Executable).statusOf n = .Executed ↔
      g.statusOf n = .Executed) := by
  by_cases hn : n = c
  · subst hn
    have hlt : n < g.nodes.length := statusOf_lt_length g n (by simp [hc])
    rw [Graph.statusOf_setStatus_self g n _ hlt, hc]
    simp
  · rw [Graph.statusOf_setStatus_ne g c _ n hn]

theorem promote_preserves_APE (g : Graph) (c : Nat)
    (hc : g.statusOf c = .NonExecutable) (n : Nat) :
    AllParentsExecuted (g.setStatus c .Executable) n ↔ AllParentsExecuted g n := by
  unfold AllParentsExecuted
  rw [Graph.parentsOf_setStatus]
  constructor
  · intro h p hp
    exact (promote_preserves_executed g c hc p).mp (h p hp)
  · intro h p hp
    exact (promote_preserves_executed g c hc p).mpr (h p hp)

theorem parentFlags_pair (g : Graph) (n : Nat)
    (hnoexec : NoExecuting g) (hedges : EdgesValid g) :
    parentFlags g (g.parentsOf n) =
      ((g.parentsOf n).all (fun p => g.statusOf p == .Executed),
       (g.parentsOf n).all (fun p => g.statusOf p == .Executed)) := by
  apply parentFlags_no_executing
  intro p hp
  have hedge : (p, n) ∈ g.edges := (mem_parentsOf g n p).mp hp
  exact hnoexec p (hedges _ hedge).1

theorem all_executed_iff_APE (g : Graph) (n : Nat) :
    ((g.parentsOf n).all (fun p => g.statusOf p == .Executed) = true) ↔
      AllParentsExecuted g n := by
  rw [List.all_eq_true]
  unfold AllParentsExecuted
  constructor
  · intro h p hp
    have := h p hp
    simpa using this
  · intro h p hp
    simp [h p hp]

theorem get_executable_of_executed (g : Graph) (h : g.is_graph_executed = true) :
    g.get_executable_node_index = none := by
  rw [Graph.get_executable_node_index, List.findIdx?_eq_none_iff]
  intro nd hmem
  obtain ⟨j, hj, rfl⟩ := List.mem_iff_getElem.mp hmem
  have := (is_graph_executed_iff g).mp h j hj
  simp only [Graph.statusOf, List.getD_eq_getElem?_getD, List.getElem?_eq_getElem hj,
    Option.getD_some] at this
  simp [this]

theorem get_executable_isSome (g : Graph) (i : Nat)
    (hi : i < g.nodes.length) (hstat : g.statusOf i = .Executable) :
    ∃ j, g.get_executable_node_index = some j := by
  cases hfind : g.get_executable_node_index with
  | some j => exact ⟨j, rfl⟩
  | none => exact absurd hstat (get_executable_none g hfind i hi)

theorem claimLoop_done (shm : Graph) (h : shm.is_graph_executed = true) :
    claimLoop 1 shm shm = .ok none := by
  have hfind := get_executable_of_executed shm h
  simp only [claimLoop, hfind, h, if_true]

theorem claimLoop_claims (shm : Graph) (i : Nat)
    (hfind : shm.get_executable_node_index = some i)
    (hstat : shm.statusOf i = .Executable) :
    claimLoop 1 shm shm = .ok (some (i, shm, shm.setStatus i .Executing)) := by
  have hcas := shm_compare_commits shm i .Executing .Executable rfl hstat
  simp only [claimLoop, hfind, hcas]

/-- The children sweep with no Executing node processes each queued child
once: a queued NonExecutable child with all parents Executed is promoted to
Executable, and nothing else changes in the shared mapping. -/
theorem sweepChildren_spec :
    ∀ (queue : List Nat) (fuel : Nat) (g shm : Graph),
      queue.length < fuel →
      NoExecuting shm → EdgesValid shm →
      ∃ g' shm', sweepChildren fuel queue g shm = .ok (g', shm') ∧
        shm'.nodes.length = shm.nodes.length ∧
        shm'.edges = shm.edges ∧
        ∀ n, shm'.statusOf n =
          if n ∈ queue ∧ shm.statusOf n = .NonExecutable ∧ AllParentsExecuted shm n
          then .Executable else shm.statusOf n := by
  intro queue
  induction queue with
  | nil =>
      intro fuel g shm hfuel hnoexec hedges
      cases fuel with
      | zero => exact absurd hfuel (by simp)
      | succ f =>
          refine ⟨g, shm, rfl, rfl, rfl, ?_⟩
          intro n
          simp
  | cons child rest ih =>
      intro fuel g shm hfuel hnoexec hedges
      cases fuel with
      | zero => exact absurd hfuel (by simp)
      | succ f =>
          have hrestlen : rest.length < f := by
            simp only [List.length_cons] at hfuel
            omega
          have hpair := parentFlags_pair shm child hnoexec hedges
          by_cases hAPE : AllParentsExecuted shm child
          · have hbt : ((shm.parentsOf child).all
                (fun p => shm.statusOf p == .Executed)) = true :=
              (all_executed_iff_APE shm child).mpr hAPE
            by_cases hst : shm.statusOf child = .NonExecutable
            · -- promote branch
              have hclt : child < shm.nodes.length :=
                statusOf_lt_length shm child (by simp [hst])
              have hcas := shm_compare_commits shm child .Executable .NonExecutable rfl hst
              have hnoexec1 : NoExecuting (shm.setStatus child .Executable) := by
                intro n hn
                rw [Graph.setStatus_nodes_length] at hn
                by_cases hn' : n = child
                · subst hn'
                  rw [Graph.statusOf_setStatus_self _ _ _ hclt]
                  simp
                · rw [Graph.statusOf_setStatus_ne shm child _ n hn']
                  exact hnoexec n hn
              have hedges1 : EdgesValid (shm.setStatus child .Executable) := by
                intro e he
                rw [Graph.setStatus_edges] at he
                rw [Graph.setStatus_nodes_length]
                exact hedges e he
              obtain ⟨g', shm', hrun, hlen, hedg, hform⟩ :=
                ih f (shm.setStatus child .Executable) (shm.setStatus child .Executable)
                  hrestlen hnoexec1 hedges1
              refine ⟨g', shm', ?_, ?_, ?_, ?_⟩
              · simp only [sweepChildren, hpair, hbt, hcas]
                exact hrun
              · rw [hlen, Graph.setStatus_nodes_length]
              · rw [hedg, Graph.setStatus_edges]
              · intro n
                rw [hform n]
                by_cases hn' : n = child
                · subst hn'
                  have hneg : ¬ (n ∈ rest ∧
                      (shm.setStatus n .Executable).statusOf n = .NonExecutable ∧
                      AllParentsExecuted (shm.setStatus n .Executable) n) := by
                    rintro ⟨-, hne, -⟩
                    rw [Graph.statusOf_setStatus_self _ _ _ hclt] at hne
                    cases hne
                  rw [if_neg hneg, if_pos ⟨List.mem_cons_self _ _, hst, hAPE⟩]
                  exact Graph.statusOf_setStatus_self _ _ _ hclt
                · have hsame : (shm.setStatus child .Executable).statusOf n
                      = shm.statusOf n := Graph.statusOf_setStatus_ne shm child _ n hn'
                  by_cases hcnd : n ∈ rest ∧ shm.statusOf n = .NonExecutable ∧
                      AllParentsExecuted shm n
                  · rw [if_pos ⟨hcnd.1, by rw [hsame]; exact hcnd.2.1,
                      (promote_preserves_APE shm child hst n).mpr hcnd.2.2⟩,
                      if_pos ⟨List.mem_cons_of_mem _ hcnd.1, hcnd.2.1, hcnd.2.2⟩]
                  · rw [if_neg, if_neg, hsame]
                    · rintro ⟨hmem, hne, hape⟩
                      rcases List.mem_cons.mp hmem with h1 | h1
                      · exact hn' h1
                      · exact hcnd ⟨h1, hne, hape⟩
                    · rintro ⟨hmem, hne, hape⟩
                      rw [hsame] at hne
                      exact hcnd ⟨hmem, hne,
                        (promote_preserves_APE shm child hst n).mp hape⟩
            · -- child is not NonExecutable: the conditional write misses
              have hcas := shm_compare_mismatch shm child .Executable .NonExecutable rfl hst
              obtain ⟨g', shm', hrun, hlen, hedg, hform⟩ :=
                ih f (shm.setStatus child (shm.statusOf child)) shm
                  hrestlen hnoexec hedges
              refine ⟨g', shm', ?_, hlen, hedg, ?_⟩
              · simp only [sweepChildren, hpair, hbt, hcas]
                exact hrun
              · intro n
                rw [hform n]
                by_cases hcnd : n ∈ rest ∧ shm.statusOf n = .NonExecutable ∧
                    AllParentsExecuted shm n
                · rw [if_pos hcnd, if_pos ⟨List.mem_cons_of_mem _ hcnd.1,
                    hcnd.2.1, hcnd.2.2⟩]
                · rw [if_neg hcnd, if_neg]
                  rintro ⟨hmem, hne, hape⟩
                  rcases List.mem_cons.mp hmem with h1 | h1
                  · subst h1
                    exact hst hne
                  · exact hcnd ⟨h1, hne, hape⟩
          · -- some parent unfinished: the child is dropped from the queue
            have hbf : ((shm.parentsOf child).all
                (fun p => shm.statusOf p == .Executed)) = false := by
              rw [Bool.eq_false_iff]
              intro hbt
              exact hAPE ((all_executed_iff_APE shm child).mp hbt)
            obtain ⟨g', shm', hrun, hlen, hedg, hform⟩ :=
              ih f shm shm hrestlen hnoexec hedges
            refine ⟨g', shm', ?_, hlen, hedg, ?_⟩
            · simp only [sweepChildren, hpair, hbf]
              exact hrun
            · intro n
              rw [hform n]
              by_cases hcnd : n ∈ rest ∧ shm.statusOf n = .NonExecutable ∧
                  AllParentsExecuted shm n
              · rw [if_pos hcnd, if_pos ⟨List.mem_cons_of_mem _ hcnd.1,
                  hcnd.2.1, hcnd.2.2⟩]
              · rw [if_neg hcnd, if_neg]
                rintro ⟨hmem, hne, hape⟩
                rcases List.mem_cons.mp hmem with h1 | h1
                · subst h1
                  exact hAPE hape
                · exact hcnd ⟨h1, hne, hape⟩

/-- Finishing one Executable node removes exactly one element from the set
of unfinished nodes. -/
theorem countUnfinished_step (shm shm3 : Graph) (i : Nat)
    (hi : i < shm.nodes.length) (hstat : shm.statusOf i = .Executable)
    (hlen : shm3.nodes.length = shm.nodes.length)
    (hexe : ∀ n, shm3.statusOf n = .Executed ↔ (n = i ∨ shm.statusOf n = .Executed)) :
    countUnfinished shm3 + 1 = countUnfinished shm := by
  have hset : (Finset.range shm3.nodes.length).filter
        (fun n => ¬ shm3.statusOf n = .Executed)
      = ((Finset.range shm.nodes.length).filter
        (fun n => ¬ shm.statusOf n = .Executed)).erase i := by
    ext n
    simp only [Finset.mem_erase, Finset.mem_filter, Finset.mem_range, hlen, hexe n]
    constructor
    · rintro ⟨hn, hne⟩
      push_neg at hne
      exact ⟨hne.1, hn, hne.2⟩
    · rintro ⟨hni, hn, hne⟩
      refine ⟨hn, ?_⟩
      rintro (h | h)
      · exact hni h
      · exact hne h
  have hmem : i ∈ (Finset.range shm.nodes.length).filter
      (fun n => ¬ shm.statusOf n = .Executed) := by
    simp only [Finset.mem_filter, Finset.mem_range]
    exact ⟨hi, by rw [hstat]; simp⟩
  have hpos : 0 < ((Finset.range shm.nodes.length).filter
      (fun n => ¬ shm.statusOf n = .Executed)).card :=
    Finset.card_pos.mpr ⟨i, hmem⟩
  unfold countUnfinished
  rw [hset, Finset.card_erase_of_mem hmem]
  omega

/-- One outer iteration plus induction: a single worker with enough fuel
drives any invariant-satisfying shared graph to fully Executed. -/
theorem executeGraphRun_terminates (rank : Nat → Nat) :
    ∀ (outer sweepFuel : Nat) (shm : Graph),
      countUnfinished shm < outer →
      (∀ j, (shm.childrenOf j).length < sweepFuel) →
      (∀ e ∈ shm.edges, rank e.1 < rank e.2) →
      EdgesValid shm → NoExecuting shm → BlockedHaveUnfinishedParent shm →
      ∃ gFin, executeGraphRun outer 1 sweepFuel shm = .ok gFin ∧
        gFin.is_graph_executed = true := by
  intro outer
  induction outer with
  | zero =>
      intro sweepFuel shm hcount
      exact (Nat.not_lt_zero _ hcount).elim
  | succ outer ih =>
      intro sweepFuel shm hcount hsf hrank hedges hnoexec hblocked
      by_cases hdone : shm.is_graph_executed = true
      · refine ⟨shm, ?_, hdone⟩
        have hclaim := claimLoop_done shm hdone
        simp only [executeGraphRun, hclaim]
      · have hnotdone : shm.is_graph_executed = false := by
          cases h : shm.is_graph_executed
          · rfl
          · exact absurd h hdone
        obtain ⟨i0, hi0, hstat0⟩ :=
          exists_executable shm rank hrank hedges hnoexec hblocked hnotdone
        obtain ⟨i, hfind⟩ := get_executable_isSome shm i0 hi0 hstat0
        obtain ⟨hilen, histat⟩ := get_executable_some shm i hfind
        have hclaim := claimLoop_claims shm i hfind histat
        have hexecok :
            (((shm.setStatus i .Executing).nodes.getD i default).execute) = .ok () := by
          apply execute_ok
          exact Graph.statusOf_setStatus_self shm i _ hilen
        have hcas2 := shm_compare_commits (shm.setStatus i .Executing) i .Executed
          .Executing rfl (Graph.statusOf_setStatus_self shm i _ hilen)
        have hTlen : ((shm.setStatus i .Executing).setStatus i .Executed).nodes.length
            = shm.nodes.length := by
          rw [Graph.setStatus_nodes_length, Graph.setStatus_nodes_length]
        have hTedges : ((shm.setStatus i .Executing).setStatus i .Executed).edges
            = shm.edges := by
          rw [Graph.setStatus_edges, Graph.setStatus_edges]
        have hTstat : ∀ n, ((shm.setStatus i .Executing).setStatus i .Executed).statusOf n
            = if n = i then .Executed else shm.statusOf n := by
          intro n
          by_cases hn : n = i
          · subst hn
            rw [if_pos rfl]
            exact Graph.statusOf_setStatus_self _ _ _
              (by rw [Graph.setStatus_nodes_length]; exact hilen)
          · rw [if_neg hn, Graph.statusOf_setStatus_ne _ _ _ _ hn,
              Graph.statusOf_setStatus_ne _ _ _ _ hn]
        have hTnoExec : NoExecuting ((shm.setStatus i .Executing).setStatus i .Executed) := by
          intro n hn
          rw [hTlen] at hn
          rw [hTstat n]
          by_cases h : n = i
          · rw [if_pos h]
            simp
          · rw [if_neg h]
            exact hnoexec n hn
        have hTedgesValid : EdgesValid ((shm.setStatus i .Executing).setStatus i .Executed) := by
          intro e he
          rw [hTedges] at he
          rw [hTlen]
          exact hedges e he
        have hqlen : (((shm.setStatus i .Executing).setStatus i .Executed).childrenOf i).length
            < sweepFuel := by
          rw [childrenOf_congr hTedges]
          exact hsf i
        obtain ⟨g', shm3, hrun3, hlen3, hedg3, hform3⟩ :=
          sweepChildren_spec (((shm.setStatus i .Executing).setStatus i .Executed).childrenOf i)
            sweepFuel ((shm.setStatus i .Executing).setStatus i .Executed)
            ((shm.setStatus i .Executing).setStatus i .Executed)
            hqlen hTnoExec hTedgesValid
        have hstep : executeGraphRun (outer + 1) 1 sweepFuel shm
            = executeGraphRun outer 1 sweepFuel shm3 := by
          simp only [executeGraphRun, hclaim, hexecok, hcas2, hrun3]
        have hlen3' : shm3.nodes.length = shm.nodes.length := by
          rw [hlen3, hTlen]
        have hedg3' : shm3.edges = shm.edges := by
          rw [hedg3, hTedges]
        have hs3 : ∀ n, shm3.statusOf n = .Executed ↔
            (n = i ∨ shm.statusOf n = .Executed) := by
          intro n
          rw [hform3 n]
          constructor
          · intro h
            split at h
            · cases h
            · rw [hTstat n] at h
              by_cases hn : n = i
              · exact Or.inl hn
              · rw [if_neg hn] at h
                exact Or.inr h
          · intro h
            rw [if_neg, hTstat n]
            · rcases h with h | h
              · rw [if_pos h]
              · by_cases hn : n = i
                · rw [if_pos hn]
                · rw [if_neg hn]
                  exact h
            · rintro ⟨-, hne, -⟩
              rw [hTstat n] at hne
              rcases h with h | h
              · rw [if_pos h] at hne
                cases hne
              · by_cases hn : n = i
                · rw [if_pos hn] at hne
                  cases hne
                · rw [if_neg hn] at hne
                  rw [h] at hne
                  cases hne
        have hcount3 : countUnfinished shm3 + 1 = countUnfinished shm :=
          countUnfinished_step shm shm3 i hilen histat hlen3' hs3
        have hnoexec3 : NoExecuting shm3 := by
          intro n hn
          rw [hform3 n]
          split
          · simp
          · rw [hTstat n]
            by_cases h : n = i
            · rw [if_pos h]
              simp
            · rw [if_neg h]
              rw [hlen3'] at hn
              exact hnoexec n hn
        have hedges3 : EdgesValid shm3 := by
          intro e he
          rw [hedg3'] at he
          rw [hlen3']
          exact hedges e he
        have hblocked3 : BlockedHaveUnfinishedParent shm3 := by
          intro n hn hNE
          rw [hform3 n] at hNE
          have hTNE : ((shm.setStatus i .Executing).setStatus i .Executed).statusOf n
              = .NonExecutable := by
            by_cases hcnd : n ∈ (((shm.setStatus i .Executing).setStatus i .Executed).childrenOf i) ∧
                ((shm.setStatus i .Executing).setStatus i .Executed).statusOf n = .NonExecutable ∧
                AllParentsExecuted ((shm.setStatus i .Executing).setStatus i .Executed) n
            · rw [if_pos hcnd] at hNE
              cases hNE
            · rw [if_neg hcnd] at hNE
              exact hNE
          have hni : n ≠ i := by
            intro h
            rw [hTstat n, if_pos h] at hTNE
            cases hTNE
          have hshmNE : shm.statusOf n = .NonExecutable := by
            rw [hTstat n, if_neg hni] at hTNE
            exact hTNE
          have hpar3 : shm3.parentsOf n = shm.parentsOf n := parentsOf_congr hedg3' n
          by_cases hmemb : n ∈ (((shm.setStatus i .Executing).setStatus i .Executed).childrenOf i)
          · -- child of i that was not promoted: a parent is still unfinished
            have hnAPE : ¬ AllParentsExecuted
                ((shm.setStatus i .Executing).setStatus i .Executed) n := by
              intro hape
              rw [if_pos ⟨hmemb, hTNE, hape⟩] at hNE
              cases hNE
            unfold AllParentsExecuted at hnAPE
            push_neg at hnAPE
            obtain ⟨p, hp, hpne⟩ := hnAPE
            rw [parentsOf_congr hTedges] at hp
            have hpi : p ≠ i := by
              intro h
              rw [hTstat p, if_pos h] at hpne
              exact hpne rfl
            have hpshm : shm.statusOf p ≠ .Executed := by
              rw [hTstat p, if_neg hpi] at hpne
              exact hpne
            refine ⟨p, by rw [hpar3]; exact hp, ?_⟩
            intro h
            rcases (hs3 p).mp h with h | h
            · exact hpi h
            · exact hpshm h
          · -- untouched blocked node keeps its unfinished parent
            obtain ⟨p, hp, hpne⟩ := hblocked n (by rw [hlen3'] at hn; exact hn) hshmNE
            have hpi : p ≠ i := by
              intro h
              subst h
              have : n ∈ shm.childrenOf p := (mem_childrenOf shm p n).mpr
                ((mem_parentsOf shm n p).mp hp)
              rw [← childrenOf_congr hTedges] at this
              exact hmemb this
            refine ⟨p, by rw [hpar3]; exact hp, ?_⟩
            intro h
            rcases (hs3 p).mp h with h | h
            · exact hpi h
            · exact hpne h
        have hsf3 : ∀ j, (shm3.childrenOf j).length < sweepFuel := by
          intro j
          rw [childrenOf_congr hedg3']
          exact hsf j
        have hrank3 : ∀ e ∈ shm3.edges, rank e.1 < rank e.2 := by
          intro e he
          rw [hedg3'] at he
          exact hrank e he
        obtain ⟨gFin, hfin, hexec⟩ := ih sweepFuel shm3 (by omega) hsf3 hrank3
          hedges3 hnoexec3 hblocked3
        exact ⟨gFin, by rw [hstep]; exact hfin, hexec⟩

/-- C3: when a single worker runs the scheduler loop of execute_graph and no
other process mutates the shared mapping, then on any finite acyclic graph
(witnessed by a rank function on the edges) with valid edges and fresh
initial statuses the loop terminates with Ok, and at that point every node's
status in the shared mapping is Executed. -/
theorem C3_single_worker_terminates_all_executed (g : Graph) (rank : Nat → Nat)
    (hrank : ∀ e ∈ g.edges, rank e.1 < rank e.2)
    (hedges : EdgesValid g) (hfresh : FreshInit g) :
    ∃ gFin, executeGraphRun (countUnfinished g + 1) 1 (g.edges.length + 1) g
        = .ok gFin ∧ gFin.is_graph_executed = true := by
  have hnoexec : NoExecuting g := by
    intro n hn
    rw [hfresh n hn]
    by_cases hp : g.parentsOf n = []
    · rw [if_pos hp]
      intro h
      cases h
    · rw [if_neg hp]
      intro h
      cases h
  have hblocked : BlockedHaveUnfinishedParent g := by
    intro n hn hNE
    rw [hfresh n hn] at hNE
    by_cases hp : g.parentsOf n = []
    · rw [if_pos hp] at hNE
      cases hNE
    · obtain ⟨p, hpmem⟩ := List.exists_mem_of_ne_nil _ hp
      refine ⟨p, hpmem, ?_⟩
      have hedge : (p, n) ∈ g.edges := (mem_parentsOf g n p).mp hpmem
      have hplt : p < g.nodes.length := (hedges _ hedge).1
      rw [hfresh p hplt]
      by_cases hq : g.parentsOf p = []
      · rw [if_pos hq]
        intro h
        cases h
      · rw [if_neg hq]
        intro h
        cases h
  exact executeGraphRun_terminates rank (countUnfinished g + 1) (g.edges.length + 1) g
    (Nat.lt_succ_self _)
    (fun j => Nat.lt_succ_of_le (childrenOf_length_le g j))
    hrank hedges hnoexec hblocked

/-- Closed witness for C3 on a two-node chain with fresh statuses. -/
theorem C3_single_worker_terminates_all_executed_witness :
    ∃ gFin, executeGraphRun
        (countUnfinished ⟨[Node.new ['a'], ⟨['b'], .NonExecutable⟩], [(0, 1)]⟩ + 1) 1
        ((⟨[Node.new ['a'], ⟨['b'], .NonExecutable⟩], [(0, 1)]⟩ : Graph).edges.length + 1)
        ⟨[Node.new ['a'], ⟨['b'], .NonExecutable⟩], [(0, 1)]⟩
        = .ok gFin ∧ gFin.is_graph_executed = true :=
  C3_single_worker_terminates_all_executed
    ⟨[Node.new ['a'], ⟨['b'], .NonExecutable⟩], [(0, 1)]⟩ (fun n => n)
    (by decide) (by unfold EdgesValid; decide) (by unfold FreshInit; decide)

end GraphExecutor
